import Mathlib

/-!
Verification development for the ZeroSemble repository.

Two groups of definitions:

* Models of the Python code present in the repository
  (`src/api-calling/llm-zeroshot-triples-stage2.ipynb`): `extract_mentions`
  and the per-sample processing loop of `query_groq_api`, including its
  error classification and API-key rotation.

* A model of the ensemble consolidation core (entity consolidator,
  constrained triple consolidator).  The consolidation source file
  (`combine.py` and the ensemble utilities) is not part of the source
  snapshot, so those definitions are modelled from the specification,
  as marked in their doc comments.

Machine details (dicts, JSON) are embedded shallowly: dictionaries become
association lists, exceptions become `Except`, and the network call of the
API loop becomes an oracle list of outcomes consumed one call at a time.
-/

namespace ZeroSemble

/-! ## Basic string utilities -/

/-- Lower-case every character of a string (models Python `str.lower`). -/
def lowerStr (s : String) : String := ⟨s.data.map Char.toLower⟩

/-- Whitespace test used by normalization. -/
def isWsC (c : Char) : Bool := c = ' ' || c = '\t' || c = '\n' || c = '\r'

/-- Split a character list into whitespace-separated words; `acc` holds the
current word reversed. -/
def wordsAux : List Char → List Char → List (List Char)
  | [], acc => if acc.isEmpty then [] else [acc.reverse]
  | c :: cs, acc =>
    if isWsC c then
      if acc.isEmpty then wordsAux cs [] else acc.reverse :: wordsAux cs []
    else wordsAux cs (c :: acc)

/-- Join words with single spaces. -/
def joinSp : List (List Char) → List Char
  | [] => []
  | [w] => w
  | w :: ws => w ++ ' ' :: joinSp ws

/-- Modelled from the spec: the shared mention normalization of §4.1 —
case-fold and whitespace-normalize a surface string to its comparison key. -/
def normStr (s : String) : String := ⟨joinSp (wordsAux (s.data.map Char.toLower) [])⟩

/-- First-occurrence deduplication, accumulator form (`seen` holds the
elements already emitted). -/
def fdedupAux {α : Type} [DecidableEq α] : List α → List α → List α
  | _, [] => []
  | seen, a :: as =>
    if a ∈ seen then fdedupAux seen as else a :: fdedupAux (a :: seen) as

/-- Deduplicate a list keeping the first occurrence of each element. -/
def fdedup {α : Type} [DecidableEq α] (l : List α) : List α := fdedupAux [] l

theorem mem_fdedupAux {α : Type} [DecidableEq α] :
    ∀ (l seen : List α) (x : α), x ∈ fdedupAux seen l ↔ (x ∈ l ∧ x ∉ seen)
  | [], seen, x => by simp [fdedupAux]
  | a :: as, seen, x => by
    by_cases ha : a ∈ seen
    · simp only [fdedupAux, if_pos ha, mem_fdedupAux as seen x, List.mem_cons]
      constructor
      · rintro ⟨h1, h2⟩; exact ⟨Or.inr h1, h2⟩
      · rintro ⟨h1 | h1, h2⟩
        · exact absurd (h1 ▸ ha) h2
        · exact ⟨h1, h2⟩
    · simp only [fdedupAux, if_neg ha, List.mem_cons, mem_fdedupAux as (a :: seen) x]
      constructor
      · rintro (rfl | ⟨h1, h2⟩)
        · exact ⟨Or.inl rfl, ha⟩
        · exact ⟨Or.inr h1, fun hx => h2 (Or.inr hx)⟩
      · rintro ⟨rfl | h1, h2⟩
        · exact Or.inl rfl
        · by_cases hxa : x = a
          · exact Or.inl hxa
          · exact Or.inr ⟨h1, fun hx => by
              rcases hx with h | h
              · exact hxa h
              · exact h2 h⟩

theorem mem_fdedup {α : Type} [DecidableEq α] {l : List α} {x : α} :
    x ∈ fdedup l ↔ x ∈ l := by
  simp [fdedup, mem_fdedupAux]

theorem nodup_fdedupAux {α : Type} [DecidableEq α] :
    ∀ (l seen : List α), (fdedupAux seen l).Nodup
  | [], _ => List.nodup_nil
  | a :: as, seen => by
    by_cases ha : a ∈ seen
    · simpa [fdedupAux, if_pos ha] using nodup_fdedupAux as seen
    · simp only [fdedupAux, if_neg ha, List.nodup_cons]
      refine ⟨fun hmem => ?_, nodup_fdedupAux as (a :: seen)⟩
      exact ((mem_fdedupAux as (a :: seen) a).1 hmem).2 (List.mem_cons_self a seen)

theorem nodup_fdedup {α : Type} [DecidableEq α] (l : List α) : (fdedup l).Nodup :=
  nodup_fdedupAux l []

theorem fdedupAux_append_of_subset {α : Type} [DecidableEq α] :
    ∀ (l₁ l₂ seen : List α), (∀ x ∈ l₂, x ∈ seen ∨ x ∈ l₁) →
      fdedupAux seen (l₁ ++ l₂) = fdedupAux seen l₁
  | [], l₂, seen, h => by
    induction l₂ with
    | nil => rfl
    | cons b bs ih =>
      have hb : b ∈ seen := by
        rcases h b (List.mem_cons_self b bs) with h' | h'
        · exact h'
        · exact absurd h' (List.not_mem_nil b)
      simp only [List.nil_append, fdedupAux, if_pos hb]
      exact ih fun x hx => by
        rcases h x (List.mem_cons_of_mem _ hx) with h' | h'
        · exact Or.inl h'
        · exact absurd h' (List.not_mem_nil x)
  | a :: l₁, l₂, seen, h => by
    by_cases ha : a ∈ seen
    · simp only [List.cons_append, fdedupAux, if_pos ha]
      refine fdedupAux_append_of_subset l₁ l₂ seen fun x hx => ?_
      rcases h x hx with h' | h'
      · exact Or.inl h'
      · rcases List.mem_cons.1 h' with rfl | h''
        · exact Or.inl ha
        · exact Or.inr h''
    · simp only [List.cons_append, fdedupAux, if_neg ha]
      refine congrArg (a :: ·) (fdedupAux_append_of_subset l₁ l₂ (a :: seen) fun x hx => ?_)
      rcases h x hx with h' | h'
      · exact Or.inl (List.mem_cons_of_mem _ h')
      · rcases List.mem_cons.1 h' with rfl | h''
        · exact Or.inl (List.mem_cons_self x seen)
        · exact Or.inr h''

theorem fdedup_append_of_subset {α : Type} [DecidableEq α] {l₁ l₂ : List α}
    (h : ∀ x ∈ l₂, x ∈ l₁) : fdedup (l₁ ++ l₂) = fdedup l₁ :=
  fdedupAux_append_of_subset l₁ l₂ [] fun x hx => Or.inr (h x hx)

theorem fdedup_length_eq_of_mem_iff {α : Type} [DecidableEq α] {l₁ l₂ : List α}
    (h : ∀ x, x ∈ l₁ ↔ x ∈ l₂) : (fdedup l₁).length = (fdedup l₂).length := by
  refine List.Perm.length_eq ?_
  refine (List.perm_ext_iff_of_nodup (nodup_fdedup l₁) (nodup_fdedup l₂)).2 fun a => ?_
  rw [mem_fdedup, mem_fdedup]
  exact h a

theorem fdedup_ne_nil_of_mem {α : Type} [DecidableEq α] {l : List α} {x : α}
    (h : x ∈ l) : fdedup l ≠ [] := by
  intro hnil
  exact absurd (mem_fdedup.2 h) (by rw [hnil]; exact List.not_mem_nil x)

/-! ## Substring test (models Python's `in` on strings) -/

/-- `isPrefOf n h` tests whether `n` is an initial segment of `h`. -/
def isPrefOf : List Char → List Char → Bool
  | [], _ => true
  | _ :: _, [] => false
  | a :: as, b :: bs => a = b && isPrefOf as bs

/-- `hasSubAux n h` tests whether `n` occurs contiguously inside `h`. -/
def hasSubAux (needle : List Char) : List Char → Bool
  | [] => isPrefOf needle []
  | c :: cs => isPrefOf needle (c :: cs) || hasSubAux needle cs

/-- `hasSub n h`: does string `n` occur as a substring of `h`?
Models the Python expression `n in h`. -/
def hasSub (needle hay : String) : Bool := hasSubAux needle.data hay.data

/-! ## Lexicographic order on strings (codepoint order, used for tie-breaks) -/

/-- Strict lexicographic comparison of character lists. -/
def lexLt : List Char → List Char → Bool
  | [], [] => false
  | [], _ :: _ => true
  | _ :: _, [] => false
  | a :: as, b :: bs => if a < b then true else if b < a then false else lexLt as bs

/-- Strict lexicographic comparison of strings. -/
def strLtB (s t : String) : Bool := lexLt s.data t.data

theorem lexLt_cons_iff {a b : Char} {as bs : List Char} :
    lexLt (a :: as) (b :: bs) = true ↔ a < b ∨ (a = b ∧ lexLt as bs = true) := by
  by_cases hab : a < b
  · simp [lexLt, hab]
  · by_cases hba : b < a
    · simp only [lexLt, if_neg hab, if_pos hba]
      constructor
      · intro h; exact absurd h (by simp)
      · rintro (h | ⟨rfl, _⟩)
        · exact absurd h hab
        · exact absurd hba hab
    · have hq : a = b := le_antisymm (not_lt.1 hba) (not_lt.1 hab)
      simp [lexLt, if_neg hab, if_neg hba, hq]

theorem lexLt_irrefl : ∀ l : List Char, lexLt l l = false
  | [] => rfl
  | a :: as => by
    have := lexLt_irrefl as
    simp [lexLt, this]

theorem lexLt_trans : ∀ l₁ l₂ l₃ : List Char,
    lexLt l₁ l₂ = true → lexLt l₂ l₃ = true → lexLt l₁ l₃ = true
  | [], [], _, h₁, _ => by simp [lexLt] at h₁
  | [], _ :: _, [], _, h₂ => by simp [lexLt] at h₂
  | [], _ :: _, _ :: _, _, _ => rfl
  | _ :: _, [], _, h₁, _ => by simp [lexLt] at h₁
  | _ :: _, _ :: _, [], _, h₂ => by simp [lexLt] at h₂
  | a :: as, b :: bs, c :: cs, h₁, h₂ => by
    rw [lexLt_cons_iff] at h₁ h₂ ⊢
    rcases h₁ with h₁ | ⟨rfl, h₁⟩
    · rcases h₂ with h₂ | ⟨rfl, h₂⟩
      · exact Or.inl (lt_trans h₁ h₂)
      · exact Or.inl h₁
    · rcases h₂ with h₂ | ⟨rfl, h₂⟩
      · exact Or.inl h₂
      · exact Or.inr ⟨rfl, lexLt_trans as bs cs h₁ h₂⟩

theorem lexLt_total : ∀ l₁ l₂ : List Char, l₁ ≠ l₂ →
    lexLt l₁ l₂ = true ∨ lexLt l₂ l₁ = true
  | [], [], h => absurd rfl h
  | [], _ :: _, _ => Or.inl rfl
  | _ :: _, [], _ => Or.inr rfl
  | a :: as, b :: bs, h => by
    rcases lt_trichotomy a b with hab | hab | hab
    · exact Or.inl (lexLt_cons_iff.2 (Or.inl hab))
    · subst hab
      have hne : as ≠ bs := fun hq => h (by rw [hq])
      rcases lexLt_total as bs hne with h' | h'
      · exact Or.inl (lexLt_cons_iff.2 (Or.inr ⟨rfl, h'⟩))
      · exact Or.inr (lexLt_cons_iff.2 (Or.inr ⟨rfl, h'⟩))
    · exact Or.inr (lexLt_cons_iff.2 (Or.inl hab))

theorem lexLt_asymm {l₁ l₂ : List Char}
    (h₁ : lexLt l₁ l₂ = true) (h₂ : lexLt l₂ l₁ = true) : False := by
  have := lexLt_trans l₁ l₂ l₁ h₁ h₂
  rw [lexLt_irrefl] at this
  exact Bool.false_ne_true this

theorem strLtB_trans {s t u : String} (h₁ : strLtB s t = true) (h₂ : strLtB t u = true) :
    strLtB s u = true := lexLt_trans _ _ _ h₁ h₂

theorem strLtB_total {s t : String} (h : s ≠ t) :
    strLtB s t = true ∨ strLtB t s = true := by
  refine lexLt_total s.data t.data fun hq => h ?_
  cases s; cases t
  exact congrArg String.mk hq

theorem strLtB_asymm {s t : String} (h₁ : strLtB s t = true) (h₂ : strLtB t s = true) :
    False := lexLt_asymm h₁ h₂

/-! ## Models of the stage-2 notebook (`src/api-calling/llm-zeroshot-triples-stage2.ipynb`) -/

/-- Python exception kinds raised by the modelled notebook code. -/
inductive PyErr : Type
  | indexError
  | typeError
deriving DecidableEq

/-- One record of an entities list: a dict with a `"mentions"` list.  Other
fields of the dict are not read by the modelled code. -/
structure PyEntity where
  mentions : List String
deriving DecidableEq

/-- Embedded from the notebook:
`def extract_mentions(data): return [item["mentions"][0] for item in data]`.
`item["mentions"][0]` raises `IndexError` when the mention list is empty. -/
def extract_mentions : List PyEntity → Except PyErr (List String)
  | [] => .ok []
  | item :: rest =>
    match item.mentions with
    | [] => .error .indexError
    | m :: _ =>
      match extract_mentions rest with
      | .error e => .error e
      | .ok ms => .ok (m :: ms)

/-- A test sample: the fields of the per-sample dict that the modelled
control flow of `query_groq_api` reads. -/
structure Sample where
  id : String
  title : String
  domain : String
deriving DecidableEq

/-- Payload of one entry of a parsed model response (opaque to the loop). -/
def ResultRecord : Type := String

instance : DecidableEq ResultRecord := fun a b => instDecidableEqString a b

/-- One API call outcome observed by the loop: a successfully parsed JSON
object (keyed by doc id), or an exception carrying its message. -/
inductive Outcome : Type
  | success (json : List (String × ResultRecord))
  | failure (msg : String)

/-- Python `dict.get` with default `None`: association-list lookup. -/
def lookupDict {α : Type} : List (String × α) → String → Option α
  | [], _ => none
  | p :: ps, k => if p.1 = k then some p.2 else lookupDict ps k

/-- Python `d[k] = v`: insert or overwrite one key. -/
def setKey {α : Type} : List (String × α) → String → α → List (String × α)
  | [], k, v => [(k, v)]
  | p :: ps, k, v => if p.1 = k then (k, v) :: ps else p :: setKey ps k v

/-- Python `results.update(extracted_json)`: merge a dict into another. -/
def updateDict {α : Type} (d : List (String × α)) : List (String × α) → List (String × α)
  | [] => d
  | (k, v) :: rest => updateDict (setKey d k v) rest

/-- Embedded from the notebook: the expression
`entities_mapping.get(doc_id, [])['entities']`.  When `doc_id` is a key of
the mapping, the stored document's `'entities'` list is produced; otherwise
`.get` returns the default `[]` and subscripting a Python list with the
string `'entities'` raises `TypeError`. -/
def getEntitiesExpr (mapping : List (String × List PyEntity)) (docId : String) :
    Except PyErr (List PyEntity) :=
  match lookupDict mapping docId with
  | some ents => .ok ents
  | none => .error .typeError

/-- Embedded from the notebook:
`"401" in error_message or "invalid API key" in error_message.lower()`.
The second test keeps the source's casing: the capitalised needle is
searched inside the lower-cased message. -/
def is401B (msg : String) : Bool :=
  hasSub "401" msg || hasSub "invalid API key" (lowerStr msg)

/-- Embedded from the notebook:
`"429" in error_message or "rate limit" in error_message.lower()`. -/
def is429B (msg : String) : Bool :=
  hasSub "429" msg || hasSub "rate limit" (lowerStr msg)

/-- Embedded from the notebook: the sample loop of `query_groq_api`.
Arguments: entities mapping, remaining samples, current API-key index (the
`cycle`/`next` rotation becomes an index increment), the oracle of API-call
outcomes (one entry consumed per attempted call; an empty oracle ends the
modelled horizon), the in-memory `results` dict, and the contents last
written to the result file.  The entities lookup of a sample runs before
the `try` block, so a missing doc id propagates `TypeError` out of the
whole loop.  Inside the retry loop a 401-classified error and a
429-classified error both rotate the key and retry the same sample, while
any other error skips the sample; a success merges the parsed JSON into
`results` and saves it to the file. -/
def processLoop (mapping : List (String × List PyEntity)) :
    List Outcome → List Sample → Nat →
    List (String × ResultRecord) → List (String × ResultRecord) →
    Except PyErr (List (String × ResultRecord) × List (String × ResultRecord))
  | _, [], _, results, file => .ok (results, file)
  | [], s :: _, _, results, file =>
    match getEntitiesExpr mapping s.id with
    | .error e => .error e
    | .ok _ => .ok (results, file)
  | .success js :: orc, s :: rest, key, results, file =>
    match getEntitiesExpr mapping s.id with
    | .error e => .error e
    | .ok _ =>
      processLoop mapping orc rest key (updateDict results js) (updateDict results js)
  | .failure m :: orc, s :: rest, key, results, file =>
    match getEntitiesExpr mapping s.id with
    | .error e => .error e
    | .ok _ =>
      if is401B m then processLoop mapping orc (s :: rest) (key + 1) results file
      else if is429B m then processLoop mapping orc (s :: rest) (key + 1) results file
      else processLoop mapping orc rest key results file

theorem lookupDict_eq_none {α : Type} {mapping : List (String × α)} {k : String}
    (h : ∀ p ∈ mapping, p.1 ≠ k) : lookupDict mapping k = none := by
  induction mapping with
  | nil => rfl
  | cons p ps ih =>
    simp only [lookupDict, if_neg (h p (List.mem_cons_self p ps))]
    exact ih fun q hq => h q (List.mem_cons_of_mem p hq)

/-- Claim C8: in `query_groq_api`, a sample whose `"id"` is not a key of the
loaded entities mapping makes `entities_mapping.get(doc_id, [])['entities']`
subscript the empty-list default with a string key, raising `TypeError`
before any API call is made for that sample and aborting the run.  The
conclusion holds for every oracle of API outcomes, so no API call is
consumed, and the error propagates instead of yielding a result. -/
theorem c8_missing_doc_raises_type_error
    (mapping : List (String × List PyEntity)) (s : Sample) (rest : List Sample)
    (key : Nat) (oracle : List Outcome)
    (results file : List (String × ResultRecord))
    (h : ∀ p ∈ mapping, p.1 ≠ s.id) :
    getEntitiesExpr mapping s.id = .error .typeError ∧
    processLoop mapping oracle (s :: rest) key results file =
      .error PyErr.typeError := by
  have hlook : lookupDict mapping s.id = none := lookupDict_eq_none h
  constructor
  · simp [getEntitiesExpr, hlook]
  · cases oracle with
    | nil => simp [processLoop, getEntitiesExpr, hlook]
    | cons o orc =>
      cases o with
      | success js => simp [processLoop, getEntitiesExpr, hlook]
      | failure m => simp [processLoop, getEntitiesExpr, hlook]

/-- Witness for C8: a concrete mapping holding only `"doc1"` and a sample
with id `"doc2"` abort with `TypeError` without consuming the oracle. -/
theorem c8_witness :
    processLoop [("doc1", [])] [Outcome.success [("doc2", ("x" : ResultRecord))]]
      [⟨"doc2", "t", "law"⟩] 0 [] [] =
      .error PyErr.typeError :=
  (c8_missing_doc_raises_type_error [("doc1", [])] ⟨"doc2", "t", "law"⟩ [] 0
    [Outcome.success [("doc2", ("x" : ResultRecord))]] [] []
    (by decide)).2

/-- Claim C9: `extract_mentions` returns exactly the first mention of each
item, one per item in input order, when every item has a non-empty mention
sequence; an item with an empty mention sequence makes it raise
`IndexError`. -/
theorem c9_extract_mentions_first_or_index_error (data : List PyEntity) :
    ((∀ it ∈ data, it.mentions ≠ []) →
      extract_mentions data = .ok (data.map fun it => it.mentions.headI)) ∧
    ((∃ it ∈ data, it.mentions = []) →
      extract_mentions data = .error .indexError) := by
  induction data with
  | nil =>
    refine ⟨fun _ => rfl, fun hex => ?_⟩
    obtain ⟨it, hmem, _⟩ := hex
    exact absurd hmem (List.not_mem_nil it)
  | cons item rest ih =>
    constructor
    · intro hall
      have hitem := hall item (List.mem_cons_self item rest)
      match hm : item.mentions with
      | [] => exact absurd hm hitem
      | m :: ms =>
        have hrest := ih.1 fun it hit => hall it (List.mem_cons_of_mem item hit)
        simp [extract_mentions, hm, hrest, List.headI]
    · intro hex
      obtain ⟨it, hmem, hnil⟩ := hex
      rcases List.mem_cons.1 hmem with rfl | hmem'
      · simp [extract_mentions, hnil]
      · match hm : it.mentions, hnil with
        | [], _ =>
          have hrest := ih.2 ⟨it, hmem', hm⟩
          match hm2 : item.mentions with
          | [] => simp [extract_mentions, hm2]
          | m :: ms => simp [extract_mentions, hm2, hrest]

/-- Witness for C9: on two items whose mention lists are `["U.S.",
"United States"]` and `["Texas"]`, `extract_mentions` yields the two first
mentions; adding an item with an empty mention list raises `IndexError`. -/
theorem c9_witness :
    extract_mentions [⟨["U.S.", "United States"]⟩, ⟨["Texas"]⟩] =
      .ok ["U.S.", "Texas"] ∧
    extract_mentions [⟨["U.S."]⟩, ⟨[]⟩] = .error .indexError :=
  ⟨(c9_extract_mentions_first_or_index_error
      [⟨["U.S.", "United States"]⟩, ⟨["Texas"]⟩]).1 (by decide),
   (c9_extract_mentions_first_or_index_error [⟨["U.S."]⟩, ⟨[]⟩]).2
     ⟨⟨[]⟩, by decide, rfl⟩⟩

/-- Claim C10: in the sample loop of `query_groq_api`, an API error whose
message matches neither the 401 test nor the 429 test only skips the
current sample — the results dict and the saved file are passed on
untouched and processing continues with the next sample — while an error
matching the 401 test or the 429 test retries the same sample with the
next API key; a success merges the parsed response into the results dict
and saves it.  All four behaviours are stated as equations on
`processLoop`. -/
theorem c10_error_skip_retry
    (mapping : List (String × List PyEntity)) (s : Sample) (rest : List Sample)
    (key : Nat) (orc : List Outcome)
    (results file : List (String × ResultRecord))
    (d : List PyEntity) (m : String)
    (hd : lookupDict mapping s.id = some d) :
    (is401B m = false → is429B m = false →
      processLoop mapping (.failure m :: orc) (s :: rest) key results file =
        processLoop mapping orc rest key results file) ∧
    (is401B m = true →
      processLoop mapping (.failure m :: orc) (s :: rest) key results file =
        processLoop mapping orc (s :: rest) (key + 1) results file) ∧
    (is429B m = true →
      processLoop mapping (.failure m :: orc) (s :: rest) key results file =
        processLoop mapping orc (s :: rest) (key + 1) results file) ∧
    (∀ js, processLoop mapping (.success js :: orc) (s :: rest) key results file =
      processLoop mapping orc rest key (updateDict results js) (updateDict results js)) := by
  refine ⟨fun h1 h2 => ?_, fun h1 => ?_, fun h2 => ?_, fun js => ?_⟩
  · simp [processLoop, getEntitiesExpr, hd, h1, h2]
  · simp [processLoop, getEntitiesExpr, hd, h1]
  · by_cases h1 : is401B m = true
    · simp [processLoop, getEntitiesExpr, hd, h1]
    · simp only [Bool.not_eq_true] at h1
      simp [processLoop, getEntitiesExpr, hd, h1, h2]
  · simp [processLoop, getEntitiesExpr, hd]

/-- Witness for C10: with a one-sample run, the message `"boom"` skips the
sample, `"Error code: 401"` and `"Rate limit exceeded"` retry it with the
next key, and a success is merged and saved. -/
theorem c10_witness :
    (processLoop [("d", [])] [.failure "boom"] [⟨"d", "t", "law"⟩] 0 [] [] =
      processLoop [("d", [])] [] [] 0 [] []) ∧
    (processLoop [("d", [])] [.failure "Error code: 401"] [⟨"d", "t", "law"⟩] 0 [] [] =
      processLoop [("d", [])] [] [⟨"d", "t", "law"⟩] 1 [] []) ∧
    (processLoop [("d", [])] [.failure "Rate limit exceeded"] [⟨"d", "t", "law"⟩] 0 [] [] =
      processLoop [("d", [])] [] [⟨"d", "t", "law"⟩] 1 [] []) :=
  ⟨(c10_error_skip_retry [("d", [])] ⟨"d", "t", "law"⟩ [] 0 [] [] [] [] "boom"
      (by decide)).1 (by decide) (by decide),
   (c10_error_skip_retry [("d", [])] ⟨"d", "t", "law"⟩ [] 0 [] [] [] [] "Error code: 401"
      (by decide)).2.1 (by decide),
   (c10_error_skip_retry [("d", [])] ⟨"d", "t", "law"⟩ [] 0 [] [] [] []
      "Rate limit exceeded" (by decide)).2.2.1 (by decide)⟩

/-! ## Entity consolidation (core absent from the snapshot; modelled from the spec) -/

/-- Modelled from the spec: an `EntityCandidate` as received from one
extractor — `{mentions: ordered sequence of string, type: string}` (§3).
The type is optional so that the malformed shape "missing type" is
representable. -/
structure ECand where
  mentions : List String
  ty : Option String
deriving DecidableEq

/-- Modelled from the spec: a candidate is malformed when its type is
missing or its mention list is empty (§7, MalformedCandidate). -/
def isMalformed (c : ECand) : Bool := c.ty.isNone || c.mentions.isEmpty

/-- A validated cluster member: contributing extractor id, the candidate's
mentions, and its type. -/
structure Item where
  eid : String
  mentions : List String
  ty : String
deriving DecidableEq

/-- Modelled from the spec: candidate validation — malformed candidates
(missing type, empty mention list) are skipped and counted, valid ones are
tagged with their extractor id (§4.1 failure behavior, §7). -/
def validate (eid : String) (c : ECand) : Option Item :=
  match c.ty with
  | none => none
  | some t => if c.mentions.isEmpty then none else some ⟨eid, c.mentions, t⟩

/-- The validated items of one document input, in extractor order. -/
def itemsOf (input : List (String × List ECand)) : List Item :=
  input.flatMap fun p => p.2.filterMap (validate p.1)

/-- The normalized mention keys of one item. -/
def normsOfItem (x : Item) : List String := x.mentions.map normStr

/-- The normalized mention keys occurring in a cluster (with repetition). -/
def normsOf (cl : List Item) : List String := cl.flatMap normsOfItem

/-- Modelled from the spec: the clustering relation — a candidate belongs
with a cluster when it shares at least one normalized mention with it
(§4.1 step 2, exact string matching after normalization). -/
def sharesB (x : Item) (cl : List Item) : Bool :=
  x.mentions.any fun m => decide (normStr m ∈ normsOf cl)

/-- Modelled from the spec: insert one candidate into the running cluster
list.  Every cluster sharing a normalized mention with the candidate is
merged into the earliest such cluster together with the candidate
(transitive closure, as with union-find); a candidate sharing nothing
starts a new cluster at the end, giving first-appearance order (§4.1
step 2, §9). -/
def insertItem (x : Item) : List (List Item) → List (List Item)
  | [] => [[x]]
  | cl :: rest =>
    if sharesB x cl then
      (cl ++ (rest.filter fun c2 => sharesB x c2).flatten ++ [x]) ::
        rest.filter fun c2 => !sharesB x c2
    else cl :: insertItem x rest

/-- Modelled from the spec: cluster all validated candidates of a document
(§4.1 step 2). -/
def clustersOf (input : List (String × List ECand)) : List (List Item) :=
  (itemsOf input).foldl (fun cls x => insertItem x cls) []

/-- All surface mention occurrences of a cluster. -/
def surfacesOf (cl : List Item) : List String := cl.flatMap (·.mentions)

/-- The distinct normalized keys of a cluster, in first-appearance order. -/
def clusterKeys (cl : List Item) : List String := fdedup (normsOf cl)

/-- The surface variants of one normalized key inside a cluster. -/
def variants (cl : List Item) (k : String) : List String :=
  (surfacesOf cl).filter fun s => decide (normStr s = k)

/-- Modelled from the spec: the most frequently occurring element of a
list, earliest occurrence winning ties (used for the canonical surface
variant of §4.1 step 3). -/
def mostFrequent (l : List String) : String :=
  match l with
  | [] => ""
  | v :: vs => vs.foldl (fun best u => if l.count best < l.count u then u else best) v

/-- Modelled from the spec: canonical surface form for one normalized key
(§4.1 step 3: the most frequent surface variant of the key). -/
def canonical (cl : List Item) (k : String) : String := mostFrequent (variants cl k)

/-- Modelled from the spec: a cluster's merged mention set — one canonical
surface per distinct normalized key, deduplicated, first-appearance order
(§4.1 step 3). -/
def clusterMentions (cl : List Item) : List String :=
  (clusterKeys cl).map (canonical cl)

/-- Votes for type `t` among a cluster's member candidates. -/
def cntTy (cl : List Item) (t : String) : Nat := (cl.map (·.ty)).count t

/-- Number of distinct extractors contributing type `t` to a cluster. -/
def ectTy (cl : List Item) (t : String) : Nat :=
  (fdedup ((cl.filter fun x => decide (x.ty = t)).map (·.eid))).length

/-- Modelled from the spec: strict preference between two type labels of a
cluster — more member votes first, then more distinct contributing
extractors, then the lexicographically smaller label (§4.1 step 4). -/
def betterTy (cl : List Item) (a b : String) : Bool :=
  decide (cntTy cl b < cntTy cl a) ||
    (decide (cntTy cl a = cntTy cl b) &&
      (decide (ectTy cl b < ectTy cl a) ||
        (decide (ectTy cl a = ectTy cl b) && strLtB a b)))

/-- Fold selecting the most preferred element, the first one as initial
accumulator. -/
def pickBest (better : String → String → Bool) : List String → String
  | [] => ""
  | t :: ts => ts.foldl (fun best u => if better u best then u else best) t

/-- Modelled from the spec: majority-vote type resolution with the
documented deterministic tie-breaks (§4.1 step 4). -/
def resolveType (cl : List Item) : String :=
  pickBest (betterTy cl) (fdedup (cl.map (·.ty)))

/-- Modelled from the spec: a `ConsolidatedEntity` (§3): merged mention
set, resolved type, support = distinct contributing extractors. -/
structure ConsolidatedEntity where
  mentions : List String
  ty : String
  support : Nat
deriving DecidableEq

/-- Modelled from the spec: turn one cluster into a `ConsolidatedEntity` —
merged canonical mentions, resolved type, support = number of distinct
contributing extractor ids (§4.1 steps 3–5). -/
def clusterOutput (cl : List Item) : ConsolidatedEntity :=
  ⟨clusterMentions cl, resolveType cl, (fdedup (cl.map (·.eid))).length⟩

/-- Modelled from the spec: the entity consolidator — cluster the validated
candidates of the document, form consolidated entities, and keep those
meeting the `entity_min_votes` threshold (§4.1, §6). -/
def consolidateEntities (minVotes : Nat) (input : List (String × List ECand)) :
    List ConsolidatedEntity :=
  ((clustersOf input).map clusterOutput).filter fun e => decide (minVotes ≤ e.support)

/-- Embedded from `src/local-running/README.md` (command-line arguments
table): the default of `--entity-votes`, the minimum number of models that
must agree on an entity. -/
def entityVotesDefault : Nat := 2

/-- Embedded from `src/local-running/README.md` (command-line arguments
table): the default of `--triple-votes`, the minimum number of models that
must agree on a triple. -/
def tripleVotesDefault : Nat := 2

/-! ## Constrained triple consolidation (modelled from the spec) -/

/-- Modelled from the spec: a `TripleCandidate` (§3) — head, relation and
tail as entity surface strings. -/
structure TripleCandidate where
  head : String
  relation : String
  tail : String
deriving DecidableEq

/-- Modelled from the spec: resolve a surface string against the
consolidated entity list — the index of the first entity owning the
normalized string among its normalized mentions (§4.2 step 1). -/
def findEnt : List ConsolidatedEntity → String → Option Nat
  | [], _ => none
  | e :: es, s =>
    if normStr s ∈ e.mentions.map normStr then some 0
    else (findEnt es s).map (· + 1)

/-- A resolved triple key: head entity index, normalized relation label,
tail entity index (§4.2 step 2). -/
structure TKey where
  hd : Nat
  rel : String
  tl : Nat
deriving DecidableEq

/-- Modelled from the spec: resolve a triple candidate to its key; a triple
whose head or tail matches no consolidated entity mention is discarded
before voting (§4.2 steps 1–2). -/
def resolveKey (ents : List ConsolidatedEntity) (tc : TripleCandidate) : Option TKey :=
  match findEnt ents tc.head, findEnt ents tc.tail with
  | some hi, some ti => some ⟨hi, normStr tc.relation, ti⟩
  | _, _ => none

/-- Does one extractor's candidate list propose key `k`? -/
def proposesB (ents : List ConsolidatedEntity) (k : TKey)
    (l : List TripleCandidate) : Bool :=
  l.any fun tc => decide (resolveKey ents tc = some k)

/-- Modelled from the spec: the distinct extractor ids proposing key `k`;
an extractor proposing the same key several times counts once (§4.2
step 3). -/
def proposerIds (ents : List ConsolidatedEntity)
    (input : List (String × List TripleCandidate)) (k : TKey) : List String :=
  fdedup ((input.filter fun p => proposesB ents k p.2).map (·.1))

/-- Modelled from the spec: a key's support = count of distinct extractors
proposing it (§4.2 step 3). -/
def tripleSupport (ents : List ConsolidatedEntity)
    (input : List (String × List TripleCandidate)) (k : TKey) : Nat :=
  (proposerIds ents input k).length

/-- All distinct resolved keys of a document, first-appearance order. -/
def allTripleKeys (ents : List ConsolidatedEntity)
    (input : List (String × List TripleCandidate)) : List TKey :=
  fdedup (input.flatMap fun p => p.2.filterMap (resolveKey ents))

/-- Modelled from the spec: a `ConsolidatedTriple` (§3): references to the
resolved head and tail entity (as indices into the document's entity
list), the normalized relation label, and the support count. -/
structure ConsolidatedTriple where
  hd : Nat
  rel : String
  tl : Nat
  support : Nat
deriving DecidableEq

/-- Stable insertion by strictly greater support (descending order). -/
def insDesc (t : ConsolidatedTriple) :
    List ConsolidatedTriple → List ConsolidatedTriple
  | [] => [t]
  | u :: us => if u.support < t.support then t :: u :: us else u :: insDesc t us

/-- Stable sort by descending support (first-appearance tie-break). -/
def sortBySupport (l : List ConsolidatedTriple) : List ConsolidatedTriple :=
  l.foldl (fun acc t => insDesc t acc) []

/-- Modelled from the spec: the constrained triple consolidator — resolve
candidates against the consolidated entity set (unresolvable ones are
dropped), vote by distinct extractors, keep the keys meeting
`triple_min_votes`, and order the output by descending support with
first-appearance tie-break (§4.2). -/
def consolidateTriples (ents : List ConsolidatedEntity) (minVotes : Nat)
    (input : List (String × List TripleCandidate)) : List ConsolidatedTriple :=
  sortBySupport ((allTripleKeys ents input).filterMap fun k =>
    if minVotes ≤ tripleSupport ents input k then
      some ⟨k.hd, k.rel, k.tl, tripleSupport ents input k⟩
    else none)

/-- Modelled from the spec: a `DocumentResult` (§3). -/
structure DocumentResult where
  doc_id : String
  title : String
  domain : String
  entities : List ConsolidatedEntity
  triples : List ConsolidatedTriple
deriving DecidableEq

/-- Modelled from the spec: per-document diagnostics reported to the
caller (§7 propagation policy) — counts of skipped malformed candidates
and of dropped unresolvable triples. -/
structure Diagnostics where
  skippedEntities : Nat
  droppedTriples : Nat
deriving DecidableEq

/-- Count of malformed entity candidates in a document input. -/
def countMalformed (input : List (String × List ECand)) : Nat :=
  ((input.flatMap (·.2)).filter isMalformed).length

/-- Count of triple candidates dropped as unresolvable. -/
def countDropped (ents : List ConsolidatedEntity)
    (input : List (String × List TripleCandidate)) : Nat :=
  ((input.flatMap (·.2)).filter fun tc => (resolveKey ents tc).isNone).length

/-- Modelled from the spec: whole-document consolidation — entities first,
then entity-constrained triples, with per-document diagnostics.  A total
function: consolidation never raises outward (§2, §7). -/
def consolidateDocument (docId title domain : String) (minVe minVt : Nat)
    (entInput : List (String × List ECand))
    (tripInput : List (String × List TripleCandidate)) :
    DocumentResult × Diagnostics :=
  let ents := consolidateEntities minVe entInput
  let trips := consolidateTriples ents minVt tripInput
  (⟨docId, title, domain, ents, trips⟩,
   ⟨countMalformed entInput, countDropped ents tripInput⟩)

/-! ## Shared lemmas about triple consolidation -/

theorem findEnt_some_lt {ents : List ConsolidatedEntity} {s : String} {i : Nat}
    (h : findEnt ents s = some i) :
    ∃ hlt : i < ents.length,
      normStr s ∈ (ents.get ⟨i, hlt⟩).mentions.map normStr := by
  induction ents generalizing i with
  | nil => simp [findEnt] at h
  | cons e es ih =>
    by_cases hm : normStr s ∈ e.mentions.map normStr
    · simp only [findEnt, if_pos hm, Option.some.injEq] at h
      subst h
      exact ⟨Nat.succ_pos _, hm⟩
    · simp only [findEnt, if_neg hm, Option.map_eq_some'] at h
      obtain ⟨j, hj, rfl⟩ := h
      obtain ⟨hlt, hmem⟩ := ih hj
      exact ⟨Nat.succ_lt_succ hlt, hmem⟩

theorem resolveKey_some_lt {ents : List ConsolidatedEntity}
    {tc : TripleCandidate} {k : TKey} (h : resolveKey ents tc = some k) :
    k.hd < ents.length ∧ k.tl < ents.length := by
  unfold resolveKey at h
  cases hh : findEnt ents tc.head with
  | none => rw [hh] at h; cases hh2 : findEnt ents tc.tail <;> simp [hh2] at h
  | some hi =>
    cases ht : findEnt ents tc.tail with
    | none => rw [hh, ht] at h; simp at h
    | some ti =>
      rw [hh, ht] at h
      simp only [Option.some.injEq] at h
      subst h
      obtain ⟨h1, _⟩ := findEnt_some_lt hh
      obtain ⟨h2, _⟩ := findEnt_some_lt ht
      exact ⟨h1, h2⟩

theorem mem_insDesc {t x : ConsolidatedTriple} :
    ∀ {l : List ConsolidatedTriple}, x ∈ insDesc t l ↔ x = t ∨ x ∈ l
  | [] => by simp [insDesc]
  | u :: us => by
    by_cases hs : u.support < t.support
    · simp only [insDesc, if_pos hs, List.mem_cons]
      try tauto
    · simp only [insDesc, if_neg hs, List.mem_cons, @mem_insDesc t x us]
      try tauto

theorem mem_sortBySupport {x : ConsolidatedTriple} {l : List ConsolidatedTriple} :
    x ∈ sortBySupport l ↔ x ∈ l := by
  have key : ∀ (l acc : List ConsolidatedTriple),
      (x ∈ l.foldl (fun acc t => insDesc t acc) acc ↔ x ∈ acc ∨ x ∈ l) := by
    intro l
    induction l with
    | nil => intro acc; simp
    | cons t ts ih =>
      intro acc
      rw [List.foldl_cons, ih (insDesc t acc), mem_insDesc]
      simp only [List.mem_cons]
      tauto
  have := key l []
  simp only [List.not_mem_nil, false_or] at this
  exact this

theorem mem_consolidateTriples {ents : List ConsolidatedEntity} {minVotes : Nat}
    {input : List (String × List TripleCandidate)} {t : ConsolidatedTriple}
    (h : t ∈ consolidateTriples ents minVotes input) :
    ∃ k ∈ allTripleKeys ents input,
      minVotes ≤ tripleSupport ents input k ∧
      t = ⟨k.hd, k.rel, k.tl, tripleSupport ents input k⟩ := by
  unfold consolidateTriples at h
  rw [mem_sortBySupport] at h
  obtain ⟨k, hk, hsome⟩ := List.mem_filterMap.1 h
  by_cases hv : minVotes ≤ tripleSupport ents input k
  · rw [if_pos hv, Option.some.injEq] at hsome
    exact ⟨k, hk, hv, hsome.symm⟩
  · rw [if_neg hv] at hsome
    exact absurd hsome (by simp)

theorem allTripleKeys_resolved {ents : List ConsolidatedEntity}
    {input : List (String × List TripleCandidate)} {k : TKey}
    (h : k ∈ allTripleKeys ents input) :
    ∃ p ∈ input, ∃ tc ∈ p.2, resolveKey ents tc = some k := by
  unfold allTripleKeys at h
  rw [mem_fdedup] at h
  obtain ⟨p, hp, hk⟩ := List.mem_flatMap.1 h
  obtain ⟨tc, htc, hres⟩ := List.mem_filterMap.1 hk
  exact ⟨p, hp, tc, htc, hres⟩

/-- Claim C1: in every `DocumentResult`, every consolidated triple's head
and tail reference an entity present in the same document's entity list
(both indices are in range); resolution goes through the shared
normalization — a resolved index always owns the normalized surface string
among its mention set — and a triple candidate whose normalized head or
tail matches no consolidated entity is discarded before voting
(`resolveKey` yields `none`, so it contributes no key). -/
theorem c1_triples_entity_constrained (docId title domain : String)
    (minVe minVt : Nat) (entInput : List (String × List ECand))
    (tripInput : List (String × List TripleCandidate)) :
    (∀ t ∈ ((consolidateDocument docId title domain minVe minVt entInput
        tripInput).1).triples,
      t.hd < ((consolidateDocument docId title domain minVe minVt entInput
        tripInput).1).entities.length ∧
      t.tl < ((consolidateDocument docId title domain minVe minVt entInput
        tripInput).1).entities.length) ∧
    (∀ (ents : List ConsolidatedEntity) (s : String) (i : Nat),
      findEnt ents s = some i →
      ∃ hlt : i < ents.length,
        normStr s ∈ (ents.get ⟨i, hlt⟩).mentions.map normStr) ∧
    (∀ (ents : List ConsolidatedEntity) (tc : TripleCandidate),
      findEnt ents tc.head = none ∨ findEnt ents tc.tail = none →
      resolveKey ents tc = none) := by
  refine ⟨fun t ht => ?_, fun ents s i h => findEnt_some_lt h, fun ents tc h => ?_⟩
  · obtain ⟨k, hk, _, rfl⟩ := mem_consolidateTriples ht
    obtain ⟨p, _, tc, _, hres⟩ := allTripleKeys_resolved hk
    exact resolveKey_some_lt hres
  · unfold resolveKey
    rcases h with h | h
    · rw [h]
    · rw [h]
      cases findEnt ents tc.head <;> rfl

/-- Witness for C1: two extractors agree on the triple `("us","p","tx")`
over a two-entity document; the surviving triple's head and tail indices
lie inside the entity list. -/
theorem c1_witness :
    (⟨0, "p", 1, 2⟩ : ConsolidatedTriple).hd <
      ((consolidateDocument "d" "t" "law" 1 2
        [("A", [⟨["us"], some "g"⟩, ⟨["tx"], some "l"⟩])]
        [("A", [⟨"us", "p", "tx"⟩]), ("B", [⟨"us", "p", "tx"⟩])]).1).entities.length ∧
    (⟨0, "p", 1, 2⟩ : ConsolidatedTriple).tl <
      ((consolidateDocument "d" "t" "law" 1 2
        [("A", [⟨["us"], some "g"⟩, ⟨["tx"], some "l"⟩])]
        [("A", [⟨"us", "p", "tx"⟩]), ("B", [⟨"us", "p", "tx"⟩])]).1).entities.length :=
  (c1_triples_entity_constrained "d" "t" "law" 1 2
    [("A", [⟨["us"], some "g"⟩, ⟨["tx"], some "l"⟩])]
    [("A", [⟨"us", "p", "tx"⟩]), ("B", [⟨"us", "p", "tx"⟩])]).1
    ⟨0, "p", 1, 2⟩ (by decide)

/-! ## Cluster structure invariants -/

theorem insertItem_flatten_perm (x : Item) :
    ∀ cls : List (List Item),
      (insertItem x cls).flatten.Perm (x :: cls.flatten)
  | [] => by simp [insertItem]
  | cl :: rest => by
    by_cases hs : sharesB x cl
    · simp only [insertItem, if_pos hs, List.flatten_cons]
      have hTU : ((rest.filter fun c2 => sharesB x c2).flatten ++
          (rest.filter fun c2 => !sharesB x c2).flatten).Perm rest.flatten := by
        have h := (List.filter_append_perm (fun c2 => sharesB x c2) rest).flatten
        rwa [List.flatten_append] at h
      have step1 : (cl ++ (rest.filter fun c2 => sharesB x c2).flatten ++ [x]) ++
          (rest.filter fun c2 => !sharesB x c2).flatten =
          (cl ++ (rest.filter fun c2 => sharesB x c2).flatten) ++
          (x :: (rest.filter fun c2 => !sharesB x c2).flatten) := by
        simp [List.append_assoc]
      rw [step1]
      refine List.Perm.trans List.perm_middle (List.Perm.cons x ?_)
      rw [List.append_assoc]
      exact hTU.append_left cl
    · simp only [insertItem, if_neg hs, List.flatten_cons]
      refine List.Perm.trans ((insertItem_flatten_perm x rest).append_left cl) ?_
      exact List.perm_middle

theorem foldl_insert_flatten_perm :
    ∀ (items : List Item) (cls : List (List Item)),
      ((items.foldl (fun c x => insertItem x c) cls).flatten).Perm
        (items ++ cls.flatten)
  | [], cls => by simp
  | x :: xs, cls => by
    rw [List.foldl_cons]
    refine List.Perm.trans (foldl_insert_flatten_perm xs (insertItem x cls)) ?_
    refine List.Perm.trans ((insertItem_flatten_perm x cls).append_left xs) ?_
    exact List.Perm.trans List.perm_middle (List.Perm.refl _)

theorem clustersOf_flatten_perm (input : List (String × List ECand)) :
    ((clustersOf input).flatten).Perm (itemsOf input) := by
  have h := foldl_insert_flatten_perm (itemsOf input) []
  simpa [clustersOf] using h

theorem mem_clustersOf_mem_items {input : List (String × List ECand)}
    {cl : List Item} {x : Item} (hcl : cl ∈ clustersOf input) (hx : x ∈ cl) :
    x ∈ itemsOf input :=
  (clustersOf_flatten_perm input).mem_iff.1
    (List.mem_flatten.2 ⟨cl, hcl, hx⟩)

theorem insertItem_ne_nil {x : Item} :
    ∀ {cls : List (List Item)}, (∀ cl ∈ cls, cl ≠ []) →
      ∀ cl ∈ insertItem x cls, cl ≠ []
  | [], _ => by
    intro cl hcl
    simp only [insertItem, List.mem_singleton] at hcl
    subst hcl
    exact List.cons_ne_nil x []
  | c :: rest, h => by
    intro cl hcl
    by_cases hs : sharesB x c
    · simp only [insertItem, if_pos hs, List.mem_cons] at hcl
      rcases hcl with rfl | hcl
      · simp
      · exact h _ (List.mem_cons_of_mem c (List.mem_of_mem_filter hcl))
    · simp only [insertItem, if_neg hs, List.mem_cons] at hcl
      rcases hcl with rfl | hcl
      · exact h cl (List.mem_cons_self cl rest)
      · exact insertItem_ne_nil (fun d hd => h d (List.mem_cons_of_mem c hd)) cl hcl

theorem clustersOf_ne_nil {input : List (String × List ECand)} :
    ∀ cl ∈ clustersOf input, cl ≠ [] := by
  have key : ∀ (items : List Item) (cls : List (List Item)),
      (∀ cl ∈ cls, cl ≠ []) →
      ∀ cl ∈ items.foldl (fun c x => insertItem x c) cls, cl ≠ [] := by
    intro items
    induction items with
    | nil => intro cls h; simpa using h
    | cons x xs ih =>
      intro cls h
      rw [List.foldl_cons]
      exact ih (insertItem x cls) (insertItem_ne_nil h)
  exact key (itemsOf input) [] (by simp)

theorem fdedupAux_eq_nil_of_subset {α : Type} [DecidableEq α] :
    ∀ {l seen : List α}, (∀ x ∈ l, x ∈ seen) → fdedupAux seen l = []
  | [], _, _ => rfl
  | a :: as, seen, h => by
    have ha : a ∈ seen := h a (List.mem_cons_self a as)
    simp only [fdedupAux, if_pos ha]
    exact fdedupAux_eq_nil_of_subset fun x hx => h x (List.mem_cons_of_mem a hx)

theorem fdedup_const {α : Type} [DecidableEq α] {l : List α} {e : α}
    (hne : l ≠ []) (hall : ∀ x ∈ l, x = e) : fdedup l = [e] := by
  match l, hne with
  | a :: as, _ =>
    have ha : a = e := hall a (List.mem_cons_self a as)
    subst ha
    have hrest : fdedupAux [a] as = [] :=
      fdedupAux_eq_nil_of_subset fun x hx => by
        rw [hall x (List.mem_cons_of_mem a hx)]
        exact List.mem_cons_self a []
    show fdedupAux [] (a :: as) = [a]
    simp [fdedupAux, hrest]

theorem clusterOutput_support_pos {cl : List Item} (h : cl ≠ []) :
    1 ≤ (clusterOutput cl).support := by
  match cl, h with
  | x :: rest, _ =>
    have hmem : x.eid ∈ (x :: rest).map (·.eid) := List.mem_map_of_mem _
      (List.mem_cons_self x rest)
    have hne := fdedup_ne_nil_of_mem hmem
    have := List.length_pos.2 hne
    exact this

theorem consolidateEntities_one (input : List (String × List ECand)) :
    consolidateEntities 1 input = (clustersOf input).map clusterOutput := by
  unfold consolidateEntities
  refine List.filter_eq_self.2 fun e he => ?_
  obtain ⟨cl, hcl, rfl⟩ := List.mem_map.1 he
  exact decide_eq_true (clusterOutput_support_pos (clustersOf_ne_nil cl hcl))

theorem validate_some {eid : String} {c : ECand} {x : Item}
    (h : validate eid c = some x) :
    x.eid = eid ∧ x.mentions = c.mentions ∧ c.mentions ≠ [] ∧
      c.ty = some x.ty := by
  obtain ⟨ms, ty⟩ := c
  cases ty with
  | none => simp [validate] at h
  | some t =>
    by_cases hm : ms.isEmpty
    · simp [validate, hm] at h
    · simp only [Bool.not_eq_true] at hm
      simp [validate, hm] at h
      obtain ⟨h1, h2, h3⟩ := h
      refine ⟨?_, ?_, ?_, ?_⟩ <;> simp_all [List.isEmpty_iff]

theorem itemsOf_single (e : String) (cands : List ECand) :
    itemsOf [(e, cands)] = cands.filterMap (validate e) := by
  simp [itemsOf]

/-- Claim C3 counterexample: the repository documents the entity
minimum-vote default as 2, not 1 (`--entity-votes` in the local-running
README), and at that default an entity contributed by a single extractor
is dropped rather than surviving with support 1. -/
theorem c3_counterexample :
    entityVotesDefault ≠ 1 ∧
    consolidateEntities entityVotesDefault
      [("A", [⟨["x"], some "t"⟩])] = [] := by
  exact ⟨by decide, by decide⟩

/-- Claim C3 (amended): the documented default of the entity vote
threshold is 2; with `entity_min_votes = 1` the survival claim holds —
the threshold filter drops nothing, and every entity consolidated from a
single extractor's candidate list has support exactly 1. -/
theorem c3_amended_default_and_single_extractor_support :
    entityVotesDefault = 2 ∧
    (∀ input : List (String × List ECand),
      consolidateEntities 1 input = (clustersOf input).map clusterOutput) ∧
    (∀ (e : String) (cands : List ECand),
      ∀ ent ∈ consolidateEntities 1 [(e, cands)], ent.support = 1) := by
  refine ⟨rfl, consolidateEntities_one, fun e cands ent hent => ?_⟩
  rw [consolidateEntities_one] at hent
  obtain ⟨cl, hcl, rfl⟩ := List.mem_map.1 hent
  have hne := clustersOf_ne_nil cl hcl
  have heid : ∀ y ∈ cl.map (·.eid), y = e := by
    intro y hy
    obtain ⟨x, hx, rfl⟩ := List.mem_map.1 hy
    have hx2 := mem_clustersOf_mem_items hcl hx
    rw [itemsOf_single] at hx2
    obtain ⟨c, _, hv⟩ := List.mem_filterMap.1 hx2
    exact (validate_some hv).1
  have hmapne : cl.map (·.eid) ≠ [] := by
    intro hq
    exact hne (List.map_eq_nil_iff.1 hq)
  show (fdedup (cl.map (·.eid))).length = 1
  rw [fdedup_const hmapne heid]
  rfl

/-- Witness for C3 (amended): a single extractor's lone candidate survives
consolidation at threshold 1 with support exactly 1. -/
theorem c3_witness :
    (⟨["x"], "t", 1⟩ : ConsolidatedEntity).support = 1 :=
  (c3_amended_default_and_single_extractor_support).2.2 "A"
    [⟨["x"], some "t"⟩] ⟨["x"], "t", 1⟩ (by decide)

/-! ## Well-formedness and failure behavior -/

theorem itemsOf_valid {input : List (String × List ECand)} {x : Item}
    (h : x ∈ itemsOf input) : x.mentions ≠ [] := by
  obtain ⟨p, _, hx⟩ := List.mem_flatMap.1 h
  obtain ⟨c, _, hv⟩ := List.mem_filterMap.1 hx
  obtain ⟨_, hmen, hne, _⟩ := validate_some hv
  rw [hmen]
  exact hne

theorem clusterMentions_ne_nil {cl : List Item} (hne : cl ≠ [])
    (hval : ∀ x ∈ cl, x.mentions ≠ []) : clusterMentions cl ≠ [] := by
  match cl, hne with
  | y :: rest, _ =>
    have hy := hval y (List.mem_cons_self y rest)
    match hm : y.mentions, hy with
    | m :: ms, _ =>
      have hkey : normStr m ∈ normsOf (y :: rest) := by
        refine List.mem_flatMap.2 ⟨y, List.mem_cons_self y rest, ?_⟩
        unfold normsOfItem
        rw [hm]
        exact List.mem_map_of_mem normStr (List.mem_cons_self m ms)
      have hk2 : normStr m ∈ clusterKeys (y :: rest) := mem_fdedup.2 hkey
      intro hq
      unfold clusterMentions at hq
      rw [List.map_eq_nil_iff] at hq
      rw [hq] at hk2
      exact List.not_mem_nil _ hk2

theorem tripleSupport_pos {ents : List ConsolidatedEntity}
    {input : List (String × List TripleCandidate)} {k : TKey}
    (h : k ∈ allTripleKeys ents input) : 1 ≤ tripleSupport ents input k := by
  obtain ⟨p, hp, tc, htc, hres⟩ := allTripleKeys_resolved h
  have hprop : proposesB ents k p.2 = true :=
    List.any_eq_true.2 ⟨tc, htc, decide_eq_true hres⟩
  have hmemf : p ∈ input.filter fun q => proposesB ents k q.2 :=
    List.mem_filter.2 ⟨hp, hprop⟩
  have hmap : p.1 ∈ (input.filter fun q => proposesB ents k q.2).map (·.1) :=
    List.mem_map_of_mem _ hmemf
  exact List.length_pos.2 (fdedup_ne_nil_of_mem hmap)

theorem validate_none_of_malformed {eid : String} {c : ECand}
    (h : isMalformed c = true) : validate eid c = none := by
  obtain ⟨ms, ty⟩ := c
  cases ty with
  | none => rfl
  | some t =>
    simp only [isMalformed, Option.isNone_some, Bool.false_or] at h
    simp [validate, h]

theorem filterMap_validate_filter (e : String) :
    ∀ cands : List ECand,
      (cands.filter fun c => !isMalformed c).filterMap (validate e) =
      cands.filterMap (validate e)
  | [] => rfl
  | c :: cs => by
    by_cases hm : isMalformed c
    · rw [List.filter_cons_of_neg (by simp [hm]), List.filterMap_cons_none
        (validate_none_of_malformed hm)]
      exact filterMap_validate_filter e cs
    · rw [List.filter_cons_of_pos (by simp [hm])]
      cases hv : validate e c with
      | none =>
        rw [List.filterMap_cons_none hv, List.filterMap_cons_none hv]
        exact filterMap_validate_filter e cs
      | some x =>
        rw [List.filterMap_cons_some hv, List.filterMap_cons_some hv,
          filterMap_validate_filter e cs]

theorem itemsOf_drop_malformed (input : List (String × List ECand)) :
    itemsOf (input.map fun p => (p.1, p.2.filter fun c => !isMalformed c)) =
    itemsOf input := by
  unfold itemsOf
  rw [List.flatMap_map]
  refine List.flatMap_congr fun p _ => ?_
  exact filterMap_validate_filter p.1 p.2

theorem resolveKey_nil (tc : TripleCandidate) : resolveKey [] tc = none := rfl

theorem allTripleKeys_nil (input : List (String × List TripleCandidate)) :
    allTripleKeys [] input = [] := by
  unfold allTripleKeys
  have h : (input.flatMap fun p => p.2.filterMap (resolveKey [])) = [] := by
    rw [List.flatMap_eq_nil_iff]
    intro p _
    rw [List.filterMap_eq_nil_iff]
    intro tc _
    exact resolveKey_nil tc
  rw [h]
  rfl

/-- Claim C5: consolidation is modelled as a total function, so no input —
including inputs with malformed candidates or with every extractor empty —
makes it raise outward; malformed candidates are skipped (removing them
from the input leaves the result unchanged) and counted in the
diagnostics; and the returned `DocumentResult` is well formed: every
entity carries a nonempty mention set and support at least 1, every triple
references in-range entities and has support at least 1; if every
extractor contributes zero entity candidates both output lists are empty. -/
theorem c5_never_raises_wellformed (docId title domain : String)
    (minVe minVt : Nat) (entInput : List (String × List ECand))
    (tripInput : List (String × List TripleCandidate)) :
    ((consolidateDocument docId title domain minVe minVt entInput
        tripInput).2.skippedEntities = countMalformed entInput) ∧
    (consolidateEntities minVe
        (entInput.map fun p => (p.1, p.2.filter fun c => !isMalformed c)) =
      consolidateEntities minVe entInput) ∧
    (∀ e ∈ ((consolidateDocument docId title domain minVe minVt entInput
        tripInput).1).entities, e.mentions ≠ [] ∧ 1 ≤ e.support) ∧
    (∀ t ∈ ((consolidateDocument docId title domain minVe minVt entInput
        tripInput).1).triples,
      t.hd < ((consolidateDocument docId title domain minVe minVt entInput
        tripInput).1).entities.length ∧
      t.tl < ((consolidateDocument docId title domain minVe minVt entInput
        tripInput).1).entities.length ∧ 1 ≤ t.support) ∧
    ((∀ p ∈ entInput, p.2 = []) →
      ((consolidateDocument docId title domain minVe minVt entInput
        tripInput).1).entities = [] ∧
      ((consolidateDocument docId title domain minVe minVt entInput
        tripInput).1).triples = []) := by
  refine ⟨rfl, ?_, fun e he => ?_, fun t ht => ?_, fun hemp => ?_⟩
  · unfold consolidateEntities clustersOf
    rw [itemsOf_drop_malformed]
  · have he2 : e ∈ consolidateEntities minVe entInput := he
    obtain ⟨hmemmap, _⟩ := List.mem_filter.1 he2
    obtain ⟨cl, hcl, rfl⟩ := List.mem_map.1 hmemmap
    have hne := clustersOf_ne_nil cl hcl
    refine ⟨clusterMentions_ne_nil hne fun x hx =>
      itemsOf_valid (mem_clustersOf_mem_items hcl hx), clusterOutput_support_pos hne⟩
  · have ht2 : t ∈ consolidateTriples (consolidateEntities minVe entInput)
        minVt tripInput := ht
    obtain ⟨k, hk, _, rfl⟩ := mem_consolidateTriples ht2
    obtain ⟨p, _, tc, _, hres⟩ := allTripleKeys_resolved hk
    obtain ⟨h1, h2⟩ := resolveKey_some_lt hres
    exact ⟨h1, h2, tripleSupport_pos hk⟩
  · have hitems : itemsOf entInput = [] := by
      unfold itemsOf
      rw [List.flatMap_eq_nil_iff]
      intro p hp
      rw [hemp p hp]
      rfl
    have hents : consolidateEntities minVe entInput = [] := by
      unfold consolidateEntities clustersOf
      rw [hitems]
      rfl
    refine ⟨hents, ?_⟩
    show consolidateTriples (consolidateEntities minVe entInput) minVt tripInput = []
    rw [hents]
    unfold consolidateTriples
    rw [allTripleKeys_nil]
    rfl

/-- Witness for C5: a document whose only extractor contributes nothing
yields empty entity and triple lists, and a surviving entity of a
singleton input is well formed. -/
theorem c5_witness :
    (((consolidateDocument "d" "t" "law" 1 2 [("A", [])] []).1).entities = [] ∧
     ((consolidateDocument "d" "t" "law" 1 2 [("A", [])] []).1).triples = []) ∧
    ((⟨["x"], "t", 1⟩ : ConsolidatedEntity).mentions ≠ [] ∧
     1 ≤ (⟨["x"], "t", 1⟩ : ConsolidatedEntity).support) :=
  ⟨(c5_never_raises_wellformed "d" "t" "law" 1 2 [("A", [])] []).2.2.2.2
      (by decide),
   (c5_never_raises_wellformed "d" "t" "law" 1 1 [("A", [⟨["x"], some "t"⟩])]
      []).2.2.1 ⟨["x"], "t", 1⟩ (by decide)⟩

/-! ## Voting semantics -/

theorem tkey_eta (k : TKey) : (⟨k.hd, k.rel, k.tl⟩ : TKey) = k := by
  cases k
  rfl

theorem mem_allTripleKeys_of_support_pos {ents : List ConsolidatedEntity}
    {input : List (String × List TripleCandidate)} {k : TKey}
    (h : 1 ≤ tripleSupport ents input k) : k ∈ allTripleKeys ents input := by
  unfold tripleSupport at h
  have hne : proposerIds ents input k ≠ [] := by
    intro hq
    rw [hq] at h
    exact absurd h (by simp)
  match hids : proposerIds ents input k, hne with
  | i :: _, _ =>
    have hi : i ∈ proposerIds ents input k := by
      rw [hids]
      exact List.mem_cons_self i _
    unfold proposerIds at hi
    rw [mem_fdedup] at hi
    obtain ⟨p, hpf, _⟩ := List.mem_map.1 hi
    obtain ⟨hp, hprop⟩ := List.mem_filter.1 hpf
    obtain ⟨tc, htc, hres⟩ := List.any_eq_true.1 hprop
    refine mem_fdedup.2 (List.mem_flatMap.2 ⟨p, hp, ?_⟩)
    exact List.mem_filterMap.2 ⟨tc, htc, of_decide_eq_true hres⟩

/-- Claim C2: in triple consolidation, the support recorded on every
output triple equals the number of distinct extractors proposing its key;
an extractor proposing the same key several times counts once; and with
the default minimum-vote threshold of 2, a key proposed by exactly one
extractor is dropped while a key proposed by two or more extractors is
retained with support equal to the count of distinct proposing
extractors. -/
theorem c2_triple_voting_threshold (ents : List ConsolidatedEntity)
    (input : List (String × List TripleCandidate)) (k : TKey) :
    (∀ t ∈ consolidateTriples ents tripleVotesDefault input,
      t.support = tripleSupport ents input ⟨t.hd, t.rel, t.tl⟩) ∧
    (∀ (id : String) (tc : TripleCandidate) (l : List TripleCandidate)
        (rest : List (String × List TripleCandidate)),
      tripleSupport ents ((id, tc :: tc :: l) :: rest) k =
        tripleSupport ents ((id, tc :: l) :: rest) k) ∧
    (tripleSupport ents input k = 1 →
      ∀ t ∈ consolidateTriples ents tripleVotesDefault input,
        (⟨t.hd, t.rel, t.tl⟩ : TKey) ≠ k) ∧
    (2 ≤ tripleSupport ents input k →
      ∃ t ∈ consolidateTriples ents tripleVotesDefault input,
        (⟨t.hd, t.rel, t.tl⟩ : TKey) = k ∧
        t.support = tripleSupport ents input k) := by
  refine ⟨fun t ht => ?_, fun id tc l rest => ?_, fun h1 t ht hkey => ?_,
    fun h2 => ?_⟩
  · obtain ⟨k2, _, _, rfl⟩ := mem_consolidateTriples ht
    rw [tkey_eta]
  · have hps : proposesB ents k (tc :: tc :: l) = proposesB ents k (tc :: l) := by
      simp only [proposesB, List.any_cons]
      rw [← Bool.or_assoc, Bool.or_self]
    cases hc : proposesB ents k (tc :: l) with
    | true =>
      simp [tripleSupport, proposerIds, List.filter_cons, hps, hc]
    | false =>
      simp [tripleSupport, proposerIds, List.filter_cons, hps, hc]
  · obtain ⟨k2, _, hv, rfl⟩ := mem_consolidateTriples ht
    rw [tkey_eta] at hkey
    subst hkey
    rw [h1] at hv
    exact absurd hv (by decide)
  · have hk : k ∈ allTripleKeys ents input :=
      mem_allTripleKeys_of_support_pos (le_trans (by decide) h2)
    refine ⟨⟨k.hd, k.rel, k.tl, tripleSupport ents input k⟩, ?_, ?_, rfl⟩
    · unfold consolidateTriples
      rw [mem_sortBySupport]
      refine List.mem_filterMap.2 ⟨k, hk, ?_⟩
      rw [if_pos (show tripleVotesDefault ≤ tripleSupport ents input k from h2)]
    · rw [tkey_eta]

/-- Witness for C2: with entities `us` and `tx`, extractors A and B both
propose `("us","p","tx")` and only C proposes `("us","q","tx")`; at the
default threshold 2 the first key is retained with support 2 while the
second key matches no output triple; duplicating a candidate inside one
extractor's list leaves the support unchanged. -/
theorem c2_witness :
    ((⟨0, normStr "p", 1, 2⟩ : ConsolidatedTriple).support =
      tripleSupport
        (consolidateEntities 1 [("A", [⟨["us"], some "g"⟩, ⟨["tx"], some "l"⟩])])
        [("A", [⟨"us", "p", "tx"⟩]), ("B", [⟨"us", "p", "tx"⟩]),
         ("C", [⟨"us", "q", "tx"⟩])] ⟨0, normStr "p", 1⟩) ∧
    (tripleSupport
        (consolidateEntities 1 [("A", [⟨["us"], some "g"⟩, ⟨["tx"], some "l"⟩])])
        [("A", [⟨"us", "p", "tx"⟩, ⟨"us", "p", "tx"⟩, ⟨"us", "q", "tx"⟩]),
         ("B", [⟨"us", "p", "tx"⟩])] ⟨0, normStr "p", 1⟩ =
      tripleSupport
        (consolidateEntities 1 [("A", [⟨["us"], some "g"⟩, ⟨["tx"], some "l"⟩])])
        [("A", [⟨"us", "p", "tx"⟩, ⟨"us", "q", "tx"⟩]),
         ("B", [⟨"us", "p", "tx"⟩])] ⟨0, normStr "p", 1⟩) ∧
    ((⟨0, normStr "p", 1⟩ : TKey) ≠ ⟨0, normStr "q", 1⟩) ∧
    (∃ t ∈ consolidateTriples
        (consolidateEntities 1 [("A", [⟨["us"], some "g"⟩, ⟨["tx"], some "l"⟩])])
        tripleVotesDefault
        [("A", [⟨"us", "p", "tx"⟩]), ("B", [⟨"us", "p", "tx"⟩]),
         ("C", [⟨"us", "q", "tx"⟩])],
      (⟨t.hd, t.rel, t.tl⟩ : TKey) = ⟨0, normStr "p", 1⟩ ∧
      t.support = tripleSupport
        (consolidateEntities 1 [("A", [⟨["us"], some "g"⟩, ⟨["tx"], some "l"⟩])])
        [("A", [⟨"us", "p", "tx"⟩]), ("B", [⟨"us", "p", "tx"⟩]),
         ("C", [⟨"us", "q", "tx"⟩])] ⟨0, normStr "p", 1⟩) :=
  ⟨(c2_triple_voting_threshold
      (consolidateEntities 1 [("A", [⟨["us"], some "g"⟩, ⟨["tx"], some "l"⟩])])
      [("A", [⟨"us", "p", "tx"⟩]), ("B", [⟨"us", "p", "tx"⟩]),
       ("C", [⟨"us", "q", "tx"⟩])] ⟨0, normStr "p", 1⟩).1
      ⟨0, normStr "p", 1, 2⟩ (by decide),
   (c2_triple_voting_threshold
      (consolidateEntities 1 [("A", [⟨["us"], some "g"⟩, ⟨["tx"], some "l"⟩])])
      [("B", [⟨"us", "p", "tx"⟩])] ⟨0, normStr "p", 1⟩).2.1
      "A" ⟨"us", "p", "tx"⟩ [⟨"us", "q", "tx"⟩] [("B", [⟨"us", "p", "tx"⟩])],
   (c2_triple_voting_threshold
      (consolidateEntities 1 [("A", [⟨["us"], some "g"⟩, ⟨["tx"], some "l"⟩])])
      [("A", [⟨"us", "p", "tx"⟩]), ("B", [⟨"us", "p", "tx"⟩]),
       ("C", [⟨"us", "q", "tx"⟩])] ⟨0, normStr "q", 1⟩).2.2.1 (by decide)
      ⟨0, normStr "p", 1, 2⟩ (by decide),
   (c2_triple_voting_threshold
      (consolidateEntities 1 [("A", [⟨["us"], some "g"⟩, ⟨["tx"], some "l"⟩])])
      [("A", [⟨"us", "p", "tx"⟩]), ("B", [⟨"us", "p", "tx"⟩]),
       ("C", [⟨"us", "q", "tx"⟩])] ⟨0, normStr "p", 1⟩).2.2.2 (by decide)⟩

/-! ## Type resolution -/

theorem foldl_pick_spec (better : String → String → Bool)
    (htrans : ∀ a b c, better a b = true → better b c = true → better a c = true)
    (htotal : ∀ a b, a ≠ b → better a b = true ∨ better b a = true) :
    ∀ (ts : List String) (t : String),
      (ts.foldl (fun best u => if better u best then u else best) t = t ∨
        ts.foldl (fun best u => if better u best then u else best) t ∈ ts) ∧
      (∀ u, (u = t ∨ u ∈ ts) →
        u ≠ ts.foldl (fun best u => if better u best then u else best) t →
        better (ts.foldl (fun best u => if better u best then u else best) t) u = true)
  | [], t => by simp
  | u₀ :: ts, t => by
    rw [List.foldl_cons]
    by_cases hb : better u₀ t = true
    · rw [if_pos hb]
      obtain ⟨ihmem, ihopt⟩ := foldl_pick_spec better htrans htotal ts u₀
      set r := ts.foldl (fun best u => if better u best then u else best) u₀ with hrdef
      constructor
      · rcases ihmem with hq | hq
        · rw [hq]
          exact Or.inr (List.mem_cons_self u₀ ts)
        · exact Or.inr (List.mem_cons_of_mem u₀ hq)
      · intro u hu hne2
        rcases hu with rfl | hu
        · by_cases hru : r = u₀
          · rw [hru]
            exact hb
          · exact htrans r u₀ u
              (ihopt u₀ (Or.inl rfl) fun hq => hru hq.symm) hb
        · rcases List.mem_cons.1 hu with rfl | hu2
          · exact ihopt u (Or.inl rfl) hne2
          · exact ihopt u (Or.inr hu2) hne2
    · rw [if_neg hb]
      obtain ⟨ihmem, ihopt⟩ := foldl_pick_spec better htrans htotal ts t
      set r := ts.foldl (fun best u => if better u best then u else best) t with hrdef
      constructor
      · rcases ihmem with hq | hq
        · rw [hq]
          exact Or.inl rfl
        · exact Or.inr (List.mem_cons_of_mem u₀ hq)
      · intro u hu hne2
        rcases hu with rfl | hu
        · exact ihopt u (Or.inl rfl) hne2
        · rcases List.mem_cons.1 hu with rfl | hu2
          · by_cases hut : u = t
            · subst hut
              exact ihopt u (Or.inl rfl) hne2
            · have hbt : better t u = true := by
                rcases htotal u t hut with h' | h'
                · exact absurd h' hb
                · exact h'
              by_cases hrt : r = t
              · rw [hrt]
                exact hbt
              · exact htrans r t u
                  (ihopt t (Or.inl rfl) fun hq => hrt hq.symm) hbt
          · exact ihopt u (Or.inr hu2) hne2

theorem pickBest_spec (better : String → String → Bool)
    (htrans : ∀ a b c, better a b = true → better b c = true → better a c = true)
    (htotal : ∀ a b, a ≠ b → better a b = true ∨ better b a = true)
    {l : List String} (hne : l ≠ []) :
    pickBest better l ∈ l ∧
      ∀ u ∈ l, u ≠ pickBest better l → better (pickBest better l) u = true := by
  match l, hne with
  | t :: ts, _ =>
    obtain ⟨hmem, hopt⟩ := foldl_pick_spec better htrans htotal ts t
    constructor
    · rcases hmem with hq | hq
      · rw [show pickBest better (t :: ts) =
          ts.foldl (fun best u => if better u best then u else best) t from rfl, hq]
        exact List.mem_cons_self t ts
      · exact List.mem_cons_of_mem t hq
    · intro u hu hne2
      rcases List.mem_cons.1 hu with rfl | hu2
      · exact hopt u (Or.inl rfl) hne2
      · exact hopt u (Or.inr hu2) hne2

theorem betterTy_iff {cl : List Item} {a b : String} :
    betterTy cl a b = true ↔
      cntTy cl b < cntTy cl a ∨
      (cntTy cl a = cntTy cl b ∧
        (ectTy cl b < ectTy cl a ∨
          (ectTy cl a = ectTy cl b ∧ strLtB a b = true))) := by
  simp [betterTy, Bool.or_eq_true, Bool.and_eq_true, decide_eq_true_iff]

theorem betterTy_trans (cl : List Item) :
    ∀ a b c, betterTy cl a b = true → betterTy cl b c = true →
      betterTy cl a c = true := by
  intro a b c hab hbc
  rw [betterTy_iff] at hab hbc ⊢
  rcases hab with hab | ⟨hab1, hab2⟩
  · rcases hbc with hbc | ⟨hbc1, hbc2⟩
    · exact Or.inl (lt_trans hbc hab)
    · exact Or.inl (hbc1 ▸ hab)
  · rcases hbc with hbc | ⟨hbc1, hbc2⟩
    · exact Or.inl (hab1 ▸ hbc)
    · refine Or.inr ⟨hab1.trans hbc1, ?_⟩
      rcases hab2 with hab2 | ⟨hab2a, hab2b⟩
      · rcases hbc2 with hbc2 | ⟨hbc2a, hbc2b⟩
        · exact Or.inl (lt_trans hbc2 hab2)
        · exact Or.inl (hbc2a ▸ hab2)
      · rcases hbc2 with hbc2 | ⟨hbc2a, hbc2b⟩
        · exact Or.inl (hab2a ▸ hbc2)
        · exact Or.inr ⟨hab2a.trans hbc2a, strLtB_trans hab2b hbc2b⟩

theorem betterTy_total (cl : List Item) :
    ∀ a b, a ≠ b → betterTy cl a b = true ∨ betterTy cl b a = true := by
  intro a b hne
  rcases Nat.lt_trichotomy (cntTy cl a) (cntTy cl b) with hc | hc | hc
  · exact Or.inr (betterTy_iff.2 (Or.inl hc))
  · rcases Nat.lt_trichotomy (ectTy cl a) (ectTy cl b) with he | he | he
    · exact Or.inr (betterTy_iff.2 (Or.inr ⟨hc.symm, Or.inl he⟩))
    · rcases strLtB_total hne with hs | hs
      · exact Or.inl (betterTy_iff.2 (Or.inr ⟨hc, Or.inr ⟨he, hs⟩⟩))
      · exact Or.inr (betterTy_iff.2 (Or.inr ⟨hc.symm, Or.inr ⟨he.symm, hs⟩⟩))
    · exact Or.inl (betterTy_iff.2 (Or.inr ⟨hc, Or.inl he⟩))
  · exact Or.inl (betterTy_iff.2 (Or.inl hc))

theorem betterTy_asymm (cl : List Item) {a b : String}
    (hab : betterTy cl a b = true) (hba : betterTy cl b a = true) : False := by
  rw [betterTy_iff] at hab hba
  rcases hab with hab | ⟨hab1, hab2⟩ <;> rcases hba with hba | ⟨hba1, hba2⟩
  · omega
  · omega
  · omega
  · rcases hab2 with hab2 | ⟨hab2a, hab2b⟩ <;>
      rcases hba2 with hba2 | ⟨hba2a, hba2b⟩
    · omega
    · omega
    · omega
    · exact strLtB_asymm hab2b hba2b

/-- Claim C4: for every nonempty entity cluster, the resolved type is a
type attached to one of its member candidates, it beats every other
candidate type under the documented chain — strictly more member votes,
or equal votes and strictly more distinct contributing extractors, or
both equal and lexicographically smaller — and it is the unique such
optimum, so type resolution is a deterministic function of the input
candidates, never a random pick. -/
theorem c4_type_resolution_majority_tiebreak (cl : List Item) (hne : cl ≠ []) :
    resolveType cl ∈ cl.map (·.ty) ∧
    (∀ u ∈ cl.map (·.ty), u ≠ resolveType cl →
      cntTy cl u < cntTy cl (resolveType cl) ∨
      (cntTy cl (resolveType cl) = cntTy cl u ∧
        (ectTy cl u < ectTy cl (resolveType cl) ∨
          (ectTy cl (resolveType cl) = ectTy cl u ∧
            strLtB (resolveType cl) u = true)))) ∧
    (∀ r, r ∈ cl.map (·.ty) →
      (∀ u ∈ cl.map (·.ty), u ≠ r → betterTy cl r u = true) →
      r = resolveType cl) := by
  have hmapne : cl.map (·.ty) ≠ [] := by
    intro hq
    exact hne (List.map_eq_nil_iff.1 hq)
  have hfne : fdedup (cl.map (·.ty)) ≠ [] := by
    obtain ⟨y, hy⟩ := List.exists_mem_of_ne_nil _ hmapne
    exact fdedup_ne_nil_of_mem hy
  obtain ⟨hmem, hopt⟩ := pickBest_spec (betterTy cl) (betterTy_trans cl)
    (betterTy_total cl) hfne
  have hmem2 : resolveType cl ∈ cl.map (·.ty) := mem_fdedup.1 hmem
  refine ⟨hmem2, fun u hu hne2 => ?_, fun r hr hropt => ?_⟩
  · have := hopt u (mem_fdedup.2 hu) hne2
    exact betterTy_iff.1 this
  · by_contra hner
    have h1 : betterTy cl r (resolveType cl) = true := hropt _ hmem2 (Ne.symm hner)
    have h2 : betterTy cl (resolveType cl) r = true :=
      hopt r (mem_fdedup.2 hr) hner
    exact betterTy_asymm cl h1 h2

/-- Witness for C4: on the spec's scenario cluster — extractor A
contributing type `"location"`, extractor B contributing
`"geo-political entity"`, one vote each — the unique optimum, hence the
resolved type, is the lexicographically smaller `"geo-political entity"`. -/
theorem c4_witness :
    "geo-political entity" =
      resolveType [⟨"A", ["u"], "location"⟩, ⟨"B", ["u"], "geo-political entity"⟩] ∧
    resolveType [⟨"A", ["u"], "location"⟩, ⟨"B", ["u"], "geo-political entity"⟩] ∈
      ([⟨"A", ["u"], "location"⟩, ⟨"B", ["u"], "geo-political entity"⟩] : List Item).map
        (·.ty) :=
  ⟨(c4_type_resolution_majority_tiebreak
      [⟨"A", ["u"], "location"⟩, ⟨"B", ["u"], "geo-political entity"⟩]
      (by decide)).2.2 "geo-political entity" (by decide) (by decide),
   (c4_type_resolution_majority_tiebreak
      [⟨"A", ["u"], "location"⟩, ⟨"B", ["u"], "geo-political entity"⟩]
      (by decide)).1⟩

/-! ## Partition invariant infrastructure -/

theorem foldl_max_mem (f : String → Nat) :
    ∀ (ts : List String) (t : String),
      ts.foldl (fun best u => if f best < f u then u else best) t = t ∨
      ts.foldl (fun best u => if f best < f u then u else best) t ∈ ts
  | [], _ => Or.inl rfl
  | u₀ :: ts, t => by
    rw [List.foldl_cons]
    by_cases hb : f t < f u₀
    · rw [if_pos hb]
      rcases foldl_max_mem f ts u₀ with hq | hq
      · rw [hq]
        exact Or.inr (List.mem_cons_self u₀ ts)
      · exact Or.inr (List.mem_cons_of_mem u₀ hq)
    · rw [if_neg hb]
      rcases foldl_max_mem f ts t with hq | hq
      · exact Or.inl hq
      · exact Or.inr (List.mem_cons_of_mem u₀ hq)

theorem mostFrequent_mem {l : List String} (h : l ≠ []) : mostFrequent l ∈ l := by
  match l, h with
  | v :: vs, _ =>
    show vs.foldl (fun best u =>
      if (v :: vs).count best < (v :: vs).count u then u else best) v ∈ v :: vs
    rcases foldl_max_mem (fun s => (v :: vs).count s) vs v with hq | hq
    · rw [hq]
      exact List.mem_cons_self v vs
    · exact List.mem_cons_of_mem v hq

theorem variants_ne_nil {cl : List Item} {k : String} (h : k ∈ clusterKeys cl) :
    variants cl k ≠ [] := by
  unfold clusterKeys at h
  rw [mem_fdedup] at h
  obtain ⟨y, hy, hk⟩ := List.mem_flatMap.1 h
  unfold normsOfItem at hk
  obtain ⟨men, hmen, rfl⟩ := List.mem_map.1 hk
  intro hq
  have hmem : men ∈ variants cl (normStr men) := by
    refine List.mem_filter.2 ⟨?_, by simp⟩
    exact List.mem_flatMap.2 ⟨y, hy, hmen⟩
  rw [hq] at hmem
  exact List.not_mem_nil _ hmem

theorem canonical_spec {cl : List Item} {k : String} (h : k ∈ clusterKeys cl) :
    canonical cl k ∈ surfacesOf cl ∧ normStr (canonical cl k) = k := by
  have hv : canonical cl k ∈ variants cl k := mostFrequent_mem (variants_ne_nil h)
  unfold variants at hv
  obtain ⟨hmem, hpred⟩ := List.mem_filter.1 hv
  exact ⟨hmem, of_decide_eq_true hpred⟩

/-- Two clusters are mention-disjoint: no normalized key is owned by
both. -/
def DisjC (cl cl2 : List Item) : Prop := ∀ m ∈ normsOf cl, m ∉ normsOf cl2

theorem disjC_symm : Symmetric DisjC := by
  intro a b h m hmb
  intro hma
  exact h m hma hmb

theorem sharesB_eq_true_iff {x : Item} {cl : List Item} :
    sharesB x cl = true ↔ ∃ m, m ∈ normsOfItem x ∧ m ∈ normsOf cl := by
  unfold sharesB
  rw [List.any_eq_true]
  constructor
  · rintro ⟨men, hmen, hd⟩
    refine ⟨normStr men, ?_, of_decide_eq_true hd⟩
    exact List.mem_map_of_mem normStr hmen
  · rintro ⟨m, hm1, hm2⟩
    unfold normsOfItem at hm1
    obtain ⟨men, hmen, rfl⟩ := List.mem_map.1 hm1
    exact ⟨men, hmen, decide_eq_true hm2⟩

theorem normsOf_append (a b : List Item) :
    normsOf (a ++ b) = normsOf a ++ normsOf b :=
  List.flatMap_append a b normsOfItem

theorem mem_normsOf_flatten {A : List (List Item)} {m : String} :
    m ∈ normsOf A.flatten ↔ ∃ cl ∈ A, m ∈ normsOf cl := by
  unfold normsOf
  rw [List.mem_flatMap]
  constructor
  · rintro ⟨y, hy, hm⟩
    obtain ⟨cl, hcl, hycl⟩ := List.mem_flatten.1 hy
    exact ⟨cl, hcl, List.mem_flatMap.2 ⟨y, hycl, hm⟩⟩
  · rintro ⟨cl, hcl, hm⟩
    obtain ⟨y, hy, hm2⟩ := List.mem_flatMap.1 hm
    exact ⟨y, List.mem_flatten.2 ⟨cl, hcl, hy⟩, hm2⟩

theorem normsOf_singleton (x : Item) : normsOf [x] = normsOfItem x := by
  unfold normsOf
  simp

theorem insertItem_norms_subset {x : Item} :
    ∀ {cls : List (List Item)} {u : List Item}, u ∈ insertItem x cls →
      ∀ m ∈ normsOf u, m ∈ normsOfItem x ∨ ∃ cl ∈ cls, m ∈ normsOf cl
  | [], u, hu => by
    simp only [insertItem, List.mem_singleton] at hu
    subst hu
    intro m hm
    rw [normsOf_singleton] at hm
    exact Or.inl hm
  | c :: rest, u, hu => by
    by_cases hs : sharesB x c
    · simp only [insertItem, if_pos hs, List.mem_cons] at hu
      rcases hu with rfl | hu
      · intro m hm
        rw [normsOf_append, normsOf_append, List.mem_append, List.mem_append] at hm
        rcases hm with (hm | hm) | hm
        · exact Or.inr ⟨c, List.mem_cons_self c rest, hm⟩
        · obtain ⟨cl, hcl, hm2⟩ := mem_normsOf_flatten.1 hm
          exact Or.inr ⟨cl, List.mem_cons_of_mem c (List.mem_of_mem_filter hcl), hm2⟩
        · rw [normsOf_singleton] at hm
          exact Or.inl hm
      · intro m hm
        exact Or.inr ⟨u, List.mem_cons_of_mem c (List.mem_of_mem_filter hu), hm⟩
    · simp only [insertItem, if_neg hs, List.mem_cons] at hu
      rcases hu with rfl | hu
      · intro m hm
        exact Or.inr ⟨u, List.mem_cons_self u rest, hm⟩
      · intro m hm
        rcases insertItem_norms_subset hu m hm with h | ⟨cl, hcl, hm2⟩
        · exact Or.inl h
        · exact Or.inr ⟨cl, List.mem_cons_of_mem c hcl, hm2⟩

theorem insertItem_pairwise_disj {x : Item} :
    ∀ {cls : List (List Item)}, List.Pairwise DisjC cls →
      List.Pairwise DisjC (insertItem x cls)
  | [], _ => by
    simp only [insertItem]
    exact List.pairwise_singleton DisjC [x]
  | c :: rest, hp => by
    obtain ⟨hchead, hprest⟩ := List.pairwise_cons.1 hp
    by_cases hs : sharesB x c
    · simp only [insertItem, if_pos hs]
      refine List.pairwise_cons.2 ⟨?_, ?_⟩
      · intro u hu
        have hu2 : u ∈ rest := List.mem_of_mem_filter hu
        have hushares : sharesB x u = false := by
          have := List.of_mem_filter hu
          simpa using this
        intro m hm
        rw [normsOf_append, normsOf_append, List.mem_append, List.mem_append] at hm
        rcases hm with (hm | hm) | hm
        · exact hchead u hu2 m hm
        · obtain ⟨tc, htc, hm2⟩ := mem_normsOf_flatten.1 hm
          have htcrest : tc ∈ rest := List.mem_of_mem_filter htc
          have htcs : sharesB x tc = true := List.of_mem_filter htc
          have hne : tc ≠ u := by
            intro hq
            rw [hq, hushares] at htcs
            exact Bool.false_ne_true htcs
          exact List.Pairwise.forall disjC_symm hprest htcrest hu2 hne m hm2
        · rw [normsOf_singleton] at hm
          intro hmu
          have : sharesB x u = true := sharesB_eq_true_iff.2 ⟨m, hm, hmu⟩
          rw [hushares] at this
          exact Bool.false_ne_true this
      · exact hprest.sublist (List.filter_sublist rest)
    · simp only [insertItem, if_neg hs]
      refine List.pairwise_cons.2 ⟨?_, insertItem_pairwise_disj hprest⟩
      intro u hu m hm
      intro hmu
      rcases insertItem_norms_subset hu m hmu with h | ⟨cl, hcl, hm2⟩
      · have : sharesB x c = true := sharesB_eq_true_iff.2 ⟨m, h, hm⟩
        exact hs this
      · exact hchead cl hcl m hm hm2

theorem clustersOf_pairwise_disj (input : List (String × List ECand)) :
    List.Pairwise DisjC (clustersOf input) := by
  have key : ∀ (items : List Item) (cls : List (List Item)),
      List.Pairwise DisjC cls →
      List.Pairwise DisjC (items.foldl (fun c x => insertItem x c) cls) := by
    intro items
    induction items with
    | nil => intro cls h; simpa using h
    | cons x xs ih =>
      intro cls h
      rw [List.foldl_cons]
      exact ih (insertItem x cls) (insertItem_pairwise_disj h)
  exact key (itemsOf input) [] List.Pairwise.nil

theorem clusterKeys_sub_norms {cl : List Item} {k : String}
    (h : k ∈ clusterKeys cl) : k ∈ normsOf cl := by
  unfold clusterKeys at h
  exact mem_fdedup.1 h

theorem clusterOutput_mentions_disj {cl1 cl2 : List Item} (hd : DisjC cl1 cl2) :
    ∀ m ∈ (clusterOutput cl1).mentions, m ∉ (clusterOutput cl2).mentions := by
  intro m hm1 hm2
  obtain ⟨k1, hk1, rfl⟩ := List.mem_map.1 hm1
  obtain ⟨k2, hk2, hc2⟩ := List.mem_map.1 hm2
  have h1 := (canonical_spec hk1).2
  have h2 := (canonical_spec hk2).2
  rw [← hc2] at h1
  rw [h2] at h1
  subst h1
  exact hd k2 (clusterKeys_sub_norms hk1) (clusterKeys_sub_norms hk2)

/-- Claim C6: in every document's consolidated output, the mention lists
of the consolidated entities are pairwise disjoint (no mention occurs in
two entities), free of internal duplicates, and every mention traces back
to a mention of some source entity candidate of the input. -/
theorem c6_mention_partition (minVotes : Nat)
    (input : List (String × List ECand)) :
    (∀ e ∈ consolidateEntities minVotes input, e.mentions.Nodup) ∧
    List.Pairwise (fun e e2 => ∀ m ∈ e.mentions, m ∉ e2.mentions)
      (consolidateEntities minVotes input) ∧
    (∀ e ∈ consolidateEntities minVotes input, ∀ m ∈ e.mentions,
      ∃ p ∈ input, ∃ c ∈ p.2, m ∈ c.mentions) := by
  refine ⟨fun e he => ?_, ?_, fun e he m hm => ?_⟩
  · obtain ⟨hmm, _⟩ := List.mem_filter.1 he
    obtain ⟨cl, _, rfl⟩ := List.mem_map.1 hmm
    refine List.Nodup.map_on ?_ (nodup_fdedup (normsOf cl))
    intro k1 hk1 k2 hk2 hceq
    have h1 := (canonical_spec (k := k1) hk1).2
    have h2 := (canonical_spec (k := k2) hk2).2
    rw [← h1, ← h2, hceq]
  · have hmap : List.Pairwise (fun e e2 => ∀ m ∈ e.mentions, m ∉ e2.mentions)
        ((clustersOf input).map clusterOutput) :=
      List.Pairwise.map clusterOutput
        (fun a b hab => clusterOutput_mentions_disj hab)
        (clustersOf_pairwise_disj input)
    exact hmap.sublist (List.filter_sublist _)
  · obtain ⟨hmm, _⟩ := List.mem_filter.1 he
    obtain ⟨cl, hcl, rfl⟩ := List.mem_map.1 hmm
    obtain ⟨k, hk, rfl⟩ := List.mem_map.1 hm
    have hsurf := (canonical_spec hk).1
    obtain ⟨y, hy, hmen⟩ := List.mem_flatMap.1 hsurf
    have hyitems := mem_clustersOf_mem_items hcl hy
    obtain ⟨p, hp, hfm⟩ := List.mem_flatMap.1 hyitems
    obtain ⟨c, hc, hv⟩ := List.mem_filterMap.1 hfm
    obtain ⟨_, hmeq, _, _⟩ := validate_some hv
    refine ⟨p, hp, c, hc, ?_⟩
    rw [← hmeq]
    exact hmen

/-- Witness for C6: on the spec's two-extractor scenario the single
consolidated entity's mention list `["U.S.", "United States"]` is
duplicate-free and its first mention traces back to extractor A's
candidate. -/
theorem c6_witness :
    (⟨["U.S.", "United States"], "geo-political entity", 2⟩ :
      ConsolidatedEntity).mentions.Nodup ∧
    (∃ p ∈ [("A", [ECand.mk ["U.S.", "United States"] (some "location")]),
            ("B", [ECand.mk ["United States"] (some "geo-political entity")])],
      ∃ c ∈ p.2, "U.S." ∈ c.mentions) :=
  ⟨(c6_mention_partition 1
      [("A", [ECand.mk ["U.S.", "United States"] (some "location")]),
       ("B", [ECand.mk ["United States"] (some "geo-political entity")])]).1
      ⟨["U.S.", "United States"], "geo-political entity", 2⟩ (by decide),
   (c6_mention_partition 1
      [("A", [ECand.mk ["U.S.", "United States"] (some "location")]),
       ("B", [ECand.mk ["United States"] (some "geo-political entity")])]).2.2
      ⟨["U.S.", "United States"], "geo-political entity", 2⟩ (by decide)
      "U.S." (by decide)⟩

/-! ## Replication idempotence infrastructure -/

theorem normsOfItem_subset {x : Item} {cl : List Item} (hx : x ∈ cl) :
    ∀ m ∈ normsOfItem x, m ∈ normsOf cl := fun m hm =>
  List.mem_flatMap.2 ⟨x, hx, hm⟩

theorem sharesB_of_mem {x : Item} {cl : List Item} (hx : x ∈ cl)
    (hv : x.mentions ≠ []) : sharesB x cl = true := by
  match hm : x.mentions, hv with
  | men :: rest, _ =>
    refine sharesB_eq_true_iff.2 ⟨normStr men, ?_, ?_⟩
    · unfold normsOfItem
      rw [hm]
      exact List.mem_map_of_mem normStr (List.mem_cons_self men rest)
    · refine normsOfItem_subset hx _ ?_
      unfold normsOfItem
      rw [hm]
      exact List.mem_map_of_mem normStr (List.mem_cons_self men rest)

theorem mem_two_clusters_false {cl1 cl2 : List Item} {y : Item}
    (hd : DisjC cl1 cl2) (h1 : y ∈ cl1) (h2 : y ∈ cl2)
    (hv : y.mentions ≠ []) : False := by
  match hm : y.mentions, hv with
  | men :: rest, _ =>
    have hk : normStr men ∈ normsOfItem y := by
      unfold normsOfItem
      rw [hm]
      exact List.mem_map_of_mem normStr (List.mem_cons_self men rest)
    exact hd (normStr men) (normsOfItem_subset h1 _ hk) (normsOfItem_subset h2 _ hk)

theorem count_flatten_of_mem_unique :
    ∀ {B : List (List Item)}, List.Pairwise DisjC B →
      (∀ cl ∈ B, ∀ z ∈ cl, z.mentions ≠ []) →
      ∀ {bcl : List Item}, bcl ∈ B → ∀ {y : Item}, y ∈ bcl →
        (B.flatten).count y = bcl.count y := by
  intro B
  induction B with
  | nil => intro _ _ bcl hbcl; exact absurd hbcl (List.not_mem_nil bcl)
  | cons c B2 ih =>
    intro hp hval bcl hbcl y hy
    obtain ⟨hchead, hprest⟩ := List.pairwise_cons.1 hp
    rw [List.flatten_cons, List.count_append]
    rcases List.mem_cons.1 hbcl with rfl | hbcl2
    · have hzero : (B2.flatten).count y = 0 := by
        rw [List.count_eq_zero]
        intro hmem
        obtain ⟨cl2, hcl2, hycl2⟩ := List.mem_flatten.1 hmem
        exact mem_two_clusters_false (hchead cl2 hcl2) hy hycl2
          (hval bcl (List.mem_cons_self bcl B2) y hy)
      rw [hzero, Nat.add_zero]
    · have hzero : c.count y = 0 := by
        rw [List.count_eq_zero]
        intro hyc
        exact mem_two_clusters_false (hchead bcl hbcl2) hyc hy
          (hval bcl (List.mem_cons_of_mem c hbcl2) y hy)
      rw [hzero, Nat.zero_add]
      exact ih hprest (fun cl hcl => hval cl (List.mem_cons_of_mem c hcl)) hbcl2 hy

theorem foldl_max_ge (f : String → Nat) :
    ∀ (ts : List String) (t u : String), (u = t ∨ u ∈ ts) →
      f u ≤ f (ts.foldl (fun best v => if f best < f v then v else best) t)
  | [], t, u, hu => by
    rcases hu with rfl | hu
    · exact le_refl _
    · exact absurd hu (List.not_mem_nil u)
  | u₀ :: ts, t, u, hu => by
    rw [List.foldl_cons]
    by_cases hb : f t < f u₀
    · rw [if_pos hb]
      rcases hu with rfl | hu
      · exact le_trans (le_of_lt hb) (foldl_max_ge f ts u₀ u₀ (Or.inl rfl))
      · rcases List.mem_cons.1 hu with hq | hu2
        · rw [hq]
          exact foldl_max_ge f ts u₀ u₀ (Or.inl rfl)
        · exact foldl_max_ge f ts u₀ u (Or.inr hu2)
    · rw [if_neg hb]
      rcases hu with rfl | hu
      · exact foldl_max_ge f ts u u (Or.inl rfl)
      · rcases List.mem_cons.1 hu with hq | hu2
        · rw [hq]
          exact le_trans (Nat.le_of_not_lt hb) (foldl_max_ge f ts t t (Or.inl rfl))
        · exact foldl_max_ge f ts t u (Or.inr hu2)

theorem foldl_max_stay (f : String → Nat) :
    ∀ (B : List String) (r : String), (∀ u ∈ B, f u ≤ f r) →
      B.foldl (fun best v => if f best < f v then v else best) r = r
  | [], _, _ => rfl
  | u :: B2, r, h => by
    rw [List.foldl_cons, if_neg (Nat.not_lt.2 (h u (List.mem_cons_self u B2)))]
    exact foldl_max_stay f B2 r fun v hv => h v (List.mem_cons_of_mem u hv)

theorem foldl_ext {α β : Type} (f g : β → α → β) :
    ∀ (l : List α) (b : β), (∀ acc x, x ∈ l → f acc x = g acc x) →
      l.foldl f b = l.foldl g b
  | [], _, _ => rfl
  | x :: xs, b, h => by
    rw [List.foldl_cons, List.foldl_cons, h b x (List.mem_cons_self x xs)]
    exact foldl_ext f g xs (g b x) fun acc z hz =>
      h acc z (List.mem_cons_of_mem x hz)

theorem count_map_eq_sum (f : Item → String) (t : String) :
    ∀ l : List Item,
      (l.map f).count t = (l.map fun y => if f y = t then 1 else 0).sum
  | [] => rfl
  | y :: l => by
    rw [List.map_cons, List.count_cons, List.map_cons, List.sum_cons,
      count_map_eq_sum f t l]
    by_cases hq : f y = t
    · simp [hq, Nat.add_comm]
    · simp [hq]

theorem sum_map_scale {k : Nat} {bcl dcl : List Item}
    (hcount : ∀ y : Item, dcl.count y = k * bcl.count y) (g : Item → Nat) :
    (dcl.map g).sum = k * (bcl.map g).sum := by
  have hms : (dcl : Multiset Item) = k • (bcl : Multiset Item) := by
    refine Multiset.ext.2 fun y => ?_
    rw [Multiset.count_nsmul, Multiset.coe_count, Multiset.coe_count]
    exact hcount y
  have h2 : ((dcl : Multiset Item).map g).sum =
      k * ((bcl : Multiset Item).map g).sum := by
    rw [hms, Multiset.map_nsmul, Multiset.sum_nsmul, smul_eq_mul]
  rw [Multiset.map_coe, Multiset.map_coe, Multiset.sum_coe, Multiset.sum_coe] at h2
  exact h2

theorem mostFrequent_scale {k : Nat} :
    ∀ {A B : List String}, 1 ≤ k → (∀ s ∈ B, s ∈ A) →
      (∀ s, (A ++ B).count s = k * A.count s) →
      mostFrequent (A ++ B) = mostFrequent A := by
  intro A B hk hsub hcount
  match A with
  | [] =>
    have hB : B = [] := by
      cases B with
      | nil => rfl
      | cons b bs =>
        exact absurd (hsub b (List.mem_cons_self b bs)) (List.not_mem_nil b)
    rw [hB]
    rfl
  | v :: vs =>
    have hkpos : 0 < k := lt_of_lt_of_le Nat.zero_lt_one hk
    have hstep : ∀ (acc u : String), u ∈ vs ++ B →
        (if ((v :: vs) ++ B).count acc < ((v :: vs) ++ B).count u then u else acc) =
        (if (v :: vs).count acc < (v :: vs).count u then u else acc) := by
      intro acc u _
      refine if_congr ?_ rfl rfl
      rw [hcount acc, hcount u]
      exact mul_lt_mul_left hkpos
    have h1 : mostFrequent ((v :: vs) ++ B) =
        (vs ++ B).foldl (fun best u =>
          if ((v :: vs) ++ B).count best < ((v :: vs) ++ B).count u then u
          else best) v := rfl
    rw [h1, foldl_ext _ _ (vs ++ B) v hstep, List.foldl_append]
    exact foldl_max_stay (fun s => (v :: vs).count s) B (mostFrequent (v :: vs))
      fun u hu => foldl_max_ge (fun s => (v :: vs).count s) vs v u
        (List.mem_cons.1 (hsub u hu))

theorem surfacesOf_append (a b : List Item) :
    surfacesOf (a ++ b) = surfacesOf a ++ surfacesOf b :=
  List.flatMap_append a b _

theorem rep_clusterKeys_eq {bcl r : List Item} (hsub : ∀ y ∈ r, y ∈ bcl) :
    clusterKeys (bcl ++ r) = clusterKeys bcl := by
  unfold clusterKeys
  rw [normsOf_append]
  refine fdedup_append_of_subset fun m hm => ?_
  obtain ⟨y, hy, hm2⟩ := List.mem_flatMap.1 hm
  exact normsOfItem_subset (hsub y hy) m hm2

theorem rep_surf_count {k : Nat} {bcl dcl : List Item}
    (hcount : ∀ y : Item, dcl.count y = k * bcl.count y) (s : String) :
    (surfacesOf dcl).count s = k * (surfacesOf bcl).count s := by
  unfold surfacesOf
  rw [List.count_flatMap, List.count_flatMap]
  exact sum_map_scale hcount _

theorem rep_canonical_eq {k : Nat} {bcl r : List Item} (hk : 1 ≤ k)
    (hsub : ∀ y ∈ r, y ∈ bcl)
    (hcount : ∀ y : Item, (bcl ++ r).count y = k * bcl.count y)
    (kk : String) : canonical (bcl ++ r) kk = canonical bcl kk := by
  unfold canonical variants
  rw [surfacesOf_append, List.filter_append]
  refine mostFrequent_scale hk ?_ ?_
  · intro s hs
    obtain ⟨hmem, hpred⟩ := List.mem_filter.1 hs
    obtain ⟨y, hy, hsmem⟩ := List.mem_flatMap.1 hmem
    exact List.mem_filter.2 ⟨List.mem_flatMap.2 ⟨y, hsub y hy, hsmem⟩, hpred⟩
  · intro s
    rw [← List.filter_append, ← surfacesOf_append]
    by_cases hq : normStr s = kk
    · rw [List.count_filter (by simp [hq]), List.count_filter (by simp [hq])]
      exact rep_surf_count hcount s
    · have hz1 : ((surfacesOf (bcl ++ r)).filter
          fun s2 => decide (normStr s2 = kk)).count s = 0 := by
        rw [List.count_eq_zero]
        intro hmem
        exact hq (of_decide_eq_true (List.mem_filter.1 hmem).2)
      have hz2 : ((surfacesOf bcl).filter
          fun s2 => decide (normStr s2 = kk)).count s = 0 := by
        rw [List.count_eq_zero]
        intro hmem
        exact hq (of_decide_eq_true (List.mem_filter.1 hmem).2)
      rw [hz1, hz2, Nat.mul_zero]

theorem rep_cntTy_scale {k : Nat} {bcl dcl : List Item}
    (hcount : ∀ y : Item, dcl.count y = k * bcl.count y) (t : String) :
    cntTy dcl t = k * cntTy bcl t := by
  unfold cntTy
  rw [count_map_eq_sum, count_map_eq_sum]
  exact sum_map_scale hcount _

theorem rep_ectTy_eq {bcl r : List Item} (hsub : ∀ y ∈ r, y ∈ bcl)
    (t : String) : ectTy (bcl ++ r) t = ectTy bcl t := by
  unfold ectTy
  refine fdedup_length_eq_of_mem_iff fun m => ?_
  rw [List.filter_append, List.map_append, List.mem_append]
  constructor
  · rintro (h | h)
    · exact h
    · obtain ⟨y, hy, rfl⟩ := List.mem_map.1 h
      obtain ⟨hy1, hy2⟩ := List.mem_filter.1 hy
      exact List.mem_map_of_mem _ (List.mem_filter.2 ⟨hsub y hy1, hy2⟩)
  · exact Or.inl

theorem rep_resolveType_eq {k : Nat} {bcl r : List Item} (hk : 1 ≤ k)
    (hsub : ∀ y ∈ r, y ∈ bcl)
    (hcount : ∀ y : Item, (bcl ++ r).count y = k * bcl.count y) :
    resolveType (bcl ++ r) = resolveType bcl := by
  have hkpos : 0 < k := lt_of_lt_of_le Nat.zero_lt_one hk
  unfold resolveType
  have hkeys : fdedup ((bcl ++ r).map (·.ty)) = fdedup (bcl.map (·.ty)) := by
    rw [List.map_append]
    refine fdedup_append_of_subset fun t ht => ?_
    obtain ⟨y, hy, rfl⟩ := List.mem_map.1 ht
    exact List.mem_map_of_mem _ (hsub y hy)
  rw [hkeys]
  have hbetter : ∀ a b, betterTy (bcl ++ r) a b = betterTy bcl a b := by
    intro a b
    unfold betterTy
    rw [rep_cntTy_scale hcount a, rep_cntTy_scale hcount b,
      rep_ectTy_eq hsub a, rep_ectTy_eq hsub b]
    have h1 : decide (k * cntTy bcl b < k * cntTy bcl a) =
        decide (cntTy bcl b < cntTy bcl a) :=
      decide_eq_decide.2 (mul_lt_mul_left hkpos)
    have h2 : decide (k * cntTy bcl a = k * cntTy bcl b) =
        decide (cntTy bcl a = cntTy bcl b) := by
      refine decide_eq_decide.2 ?_
      constructor
      · intro h
        exact Nat.eq_of_mul_eq_mul_left hkpos h
      · intro h
        rw [h]
    rw [h1, h2]
  cases hq : fdedup (bcl.map (·.ty)) with
  | nil =>
    rfl
  | cons t ts =>
    show ts.foldl (fun best u => if betterTy (bcl ++ r) u best then u else best) t =
      ts.foldl (fun best u => if betterTy bcl u best then u else best) t
    exact foldl_ext _ _ ts t fun acc u _ => by rw [hbetter u acc]

theorem rep_support_eq {bcl r : List Item} (hsub : ∀ y ∈ r, y ∈ bcl) :
    (fdedup ((bcl ++ r).map (·.eid))).length =
      (fdedup (bcl.map (·.eid))).length := by
  refine fdedup_length_eq_of_mem_iff fun m => ?_
  rw [List.map_append, List.mem_append]
  constructor
  · rintro (h | h)
    · exact h
    · obtain ⟨y, hy, rfl⟩ := List.mem_map.1 h
      exact List.mem_map_of_mem _ (hsub y hy)
  · exact Or.inl

theorem clusterOutput_eq_of_rep {k : Nat} (hk : 1 ≤ k) {bcl dcl : List Item}
    (hpre : ∃ r, dcl = bcl ++ r ∧ ∀ y ∈ r, y ∈ bcl)
    (hcount : ∀ y : Item, dcl.count y = k * bcl.count y) :
    clusterOutput dcl = clusterOutput bcl := by
  obtain ⟨r, rfl, hsub⟩ := hpre
  have hm : clusterMentions (bcl ++ r) = clusterMentions bcl := by
    unfold clusterMentions
    rw [rep_clusterKeys_eq hsub]
    exact List.map_congr_left fun kk _ => rep_canonical_eq hk hsub hcount kk
  show (⟨clusterMentions (bcl ++ r), resolveType (bcl ++ r),
    (fdedup ((bcl ++ r).map (·.eid))).length⟩ : ConsolidatedEntity) =
    ⟨clusterMentions bcl, resolveType bcl, (fdedup (bcl.map (·.eid))).length⟩
  rw [hm, rep_resolveType_eq hk hsub hcount, rep_support_eq hsub]

/-- Relation between a base cluster and its state during a re-insertion
pass: the current cluster is the base followed by repeats of base members,
and item counts are `n * base + (processed prefix restricted to base)`. -/
def DupRel (n : Nat) (p : List Item) (bcl dcl : List Item) : Prop :=
  (∃ r, dcl = bcl ++ r ∧ ∀ y ∈ r, y ∈ bcl) ∧
  (∀ y : Item, dcl.count y =
    n * bcl.count y + (p.filter fun z => decide (z ∈ bcl)).count y)

theorem forall₂_mem_right {α β : Type} {R : α → β → Prop} :
    ∀ {B : List α} {D : List β}, List.Forall₂ R B D → ∀ {u : β}, u ∈ D →
      ∃ b ∈ B, R b u := by
  intro B D hf
  induction hf with
  | nil =>
    intro u hu
    exact absurd hu (List.not_mem_nil u)
  | @cons a b l1 l2 hrel hrest ih =>
    intro u hu
    rcases List.mem_cons.1 hu with rfl | hu2
    · exact ⟨a, List.mem_cons_self a l1, hrel⟩
    · obtain ⟨b2, hb2, hr2⟩ := ih hu2
      exact ⟨b2, List.mem_cons_of_mem a hb2, hr2⟩

theorem forall₂_dupRel_extend {n : Nat} {x : Item} :
    ∀ (B : List (List Item)) {D : List (List Item)} {p : List Item},
      (∀ bcl ∈ B, x ∉ bcl) →
      List.Forall₂ (DupRel n p) B D →
      List.Forall₂ (DupRel n (p ++ [x])) B D
  | [] => by
    intro _ hf
    cases hf
    exact List.Forall₂.nil
  | bcl :: B2 => by
    intro hnot hf
    obtain ⟨dcl, D2, hrel, hrest, rfl⟩ := List.forall₂_cons_left_iff.1 hf
    refine List.Forall₂.cons ⟨hrel.1, fun y => ?_⟩
      (forall₂_dupRel_extend B2
        (fun cl hcl => hnot cl (List.mem_cons_of_mem bcl hcl)) hrest)
    rw [hrel.2 y, List.filter_append]
    have hxf : ([x].filter fun z => decide (z ∈ bcl)) = [] := by
      rw [List.filter_eq_nil_iff]
      intro a ha
      rw [List.mem_singleton] at ha
      subst ha
      simp [hnot bcl (List.mem_cons_self bcl B2)]
    rw [hxf, List.append_nil]

theorem pass_step {x : Item} {n : Nat} (hxv : x.mentions ≠ []) :
    ∀ (B : List (List Item)) {D : List (List Item)} {p : List Item},
      List.Pairwise DisjC B →
      (∀ cl ∈ B, ∀ y ∈ cl, y.mentions ≠ []) →
      (∃ bcl ∈ B, x ∈ bcl) →
      List.Forall₂ (DupRel n p) B D →
      List.Forall₂ (DupRel n (p ++ [x])) B (insertItem x D)
  | [] => by
    intro _ _ hx _
    simp at hx
  | bcl :: B2 => by
    intro hdisj hval hx hf
    obtain ⟨dcl, D2, hrel, hrest, rfl⟩ := List.forall₂_cons_left_iff.1 hf
    obtain ⟨hchead, hdrest⟩ := List.pairwise_cons.1 hdisj
    by_cases hxin : x ∈ bcl
    · have hxdcl : x ∈ dcl := by
        obtain ⟨r, hdcl, _⟩ := hrel.1
        rw [hdcl]
        exact List.mem_append_left r hxin
      have hshares : sharesB x dcl = true := sharesB_of_mem hxdcl hxv
      have hnone : ∀ u ∈ D2, sharesB x u = false := by
        intro u hu
        obtain ⟨bcl2, hbcl2, hrel2⟩ := forall₂_mem_right hrest hu
        rw [Bool.eq_false_iff]
        intro hsh
        obtain ⟨m, hmx, hmu⟩ := sharesB_eq_true_iff.1 hsh
        have hmb2 : m ∈ normsOf bcl2 := by
          obtain ⟨r2, hdcl2, hsub2⟩ := hrel2.1
          rw [hdcl2, normsOf_append, List.mem_append] at hmu
          rcases hmu with h | h
          · exact h
          · obtain ⟨y, hy, hm2⟩ := List.mem_flatMap.1 h
            exact normsOfItem_subset (hsub2 y hy) m hm2
        exact hchead bcl2 hbcl2 m (normsOfItem_subset hxin m hmx) hmb2
      have hf1 : D2.filter (fun c2 => sharesB x c2) = [] := by
        rw [List.filter_eq_nil_iff]
        intro u hu
        rw [hnone u hu]
        simp
      have hf2 : D2.filter (fun c2 => !sharesB x c2) = D2 := by
        rw [List.filter_eq_self]
        intro u hu
        rw [hnone u hu]
        rfl
      have hins : insertItem x (dcl :: D2) = (dcl ++ [x]) :: D2 := by
        show (if sharesB x dcl then
            (dcl ++ (D2.filter fun c2 => sharesB x c2).flatten ++ [x]) ::
              D2.filter (fun c2 => !sharesB x c2)
          else dcl :: insertItem x D2) = (dcl ++ [x]) :: D2
        rw [if_pos hshares, hf1, hf2]
        simp
      rw [hins]
      refine List.Forall₂.cons ⟨?_, fun y => ?_⟩
        (forall₂_dupRel_extend B2
          (fun cl hcl hxcl => mem_two_clusters_false (hchead cl hcl) hxin hxcl hxv)
          hrest)
      · obtain ⟨r, hdcl, hsub⟩ := hrel.1
        refine ⟨r ++ [x], by rw [hdcl, List.append_assoc], fun y hy => ?_⟩
        rcases List.mem_append.1 hy with h | h
        · exact hsub y h
        · rw [List.mem_singleton] at h
          subst h
          exact hxin
      · have hxkeep : ([x].filter fun z => decide (z ∈ bcl)) = [x] := by
          rw [List.filter_eq_self]
          intro a ha
          rw [List.mem_singleton] at ha
          subst ha
          exact decide_eq_true hxin
        rw [List.count_append, hrel.2 y, List.filter_append, hxkeep,
          List.count_append]
        omega
    · obtain ⟨bcl0, hbcl0, hxbcl0⟩ := hx
      have hbcl0in : bcl0 ∈ B2 := by
        rcases List.mem_cons.1 hbcl0 with rfl | h
        · exact absurd hxbcl0 hxin
        · exact h
      have hnoshare : sharesB x dcl = false := by
        rw [Bool.eq_false_iff]
        intro hsh
        obtain ⟨m, hmx, hmd⟩ := sharesB_eq_true_iff.1 hsh
        have hmb : m ∈ normsOf bcl := by
          obtain ⟨r, hdcl, hsub⟩ := hrel.1
          rw [hdcl, normsOf_append, List.mem_append] at hmd
          rcases hmd with h | h
          · exact h
          · obtain ⟨y, hy, hm2⟩ := List.mem_flatMap.1 h
            exact normsOfItem_subset (hsub y hy) m hm2
        exact hchead bcl0 hbcl0in m hmb (normsOfItem_subset hxbcl0 m hmx)
      have hins : insertItem x (dcl :: D2) = dcl :: insertItem x D2 := by
        show (if sharesB x dcl then
            (dcl ++ (D2.filter fun c2 => sharesB x c2).flatten ++ [x]) ::
              D2.filter (fun c2 => !sharesB x c2)
          else dcl :: insertItem x D2) = dcl :: insertItem x D2
        rw [if_neg (by simp [hnoshare])]
      rw [hins]
      refine List.Forall₂.cons ⟨hrel.1, fun y => ?_⟩
        (pass_step hxv B2 hdrest
          (fun cl hcl => hval cl (List.mem_cons_of_mem bcl hcl))
          ⟨bcl0, hbcl0in, hxbcl0⟩ hrest)
      rw [hrel.2 y, List.filter_append]
      have hxdrop : ([x].filter fun z => decide (z ∈ bcl)) = [] := by
        rw [List.filter_eq_nil_iff]
        intro a ha
        rw [List.mem_singleton] at ha
        subst ha
        simp [hxin]
      rw [hxdrop, List.append_nil]

theorem pass_fold {n : Nat} {B : List (List Item)}
    (hdisj : List.Pairwise DisjC B)
    (hval : ∀ cl ∈ B, ∀ y ∈ cl, y.mentions ≠ []) :
    ∀ (q : List Item) {D : List (List Item)} (p : List Item),
      (∀ z ∈ q, z.mentions ≠ [] ∧ ∃ bcl ∈ B, z ∈ bcl) →
      List.Forall₂ (DupRel n p) B D →
      List.Forall₂ (DupRel n (p ++ q)) B
        (q.foldl (fun c z => insertItem z c) D)
  | [] => by
    intro p _ hf
    simpa using hf
  | z :: q2 => by
    intro p hq hf
    rw [List.foldl_cons]
    have hz := hq z (List.mem_cons_self z q2)
    have hstep := pass_step hz.1 B hdisj hval hz.2 hf
    have hrec := pass_fold hdisj hval q2 (p ++ [z])
      (fun w hw => hq w (List.mem_cons_of_mem z hw)) hstep
    rw [List.append_assoc] at hrec
    exact hrec

/-- Relation between a base cluster and its state after whole passes:
base plus repeats, counts scaled by `k`. -/
def ClusterRep (k : Nat) (bcl dcl : List Item) : Prop :=
  (∃ r, dcl = bcl ++ r ∧ ∀ y ∈ r, y ∈ bcl) ∧
  (∀ y : Item, dcl.count y = k * bcl.count y)

theorem forall₂_imp_mem {α β : Type} {R S : α → β → Prop} :
    ∀ (B : List α) {D : List β}, (∀ a ∈ B, ∀ b, R a b → S a b) →
      List.Forall₂ R B D → List.Forall₂ S B D
  | [] => by
    intro h hf
    cases hf
    exact List.Forall₂.nil
  | a :: B2 => by
    intro h hf
    obtain ⟨b, D2, hrel, hrest, rfl⟩ := List.forall₂_cons_left_iff.1 hf
    exact List.Forall₂.cons (h a (List.mem_cons_self a B2) b hrel)
      (forall₂_imp_mem B2 (fun a2 ha2 => h a2 (List.mem_cons_of_mem a ha2)) hrest)

theorem rep_to_dup {k : Nat} {B D : List (List Item)}
    (h : List.Forall₂ (ClusterRep k) B D) :
    List.Forall₂ (DupRel k []) B D := by
  refine List.Forall₂.imp (fun a b hab => ⟨hab.1, fun y => ?_⟩) h
  rw [hab.2 y]
  simp

theorem dup_to_rep {n : Nat} {B : List (List Item)} {l : List Item}
    (hdisj : List.Pairwise DisjC B)
    (hval : ∀ cl ∈ B, ∀ y ∈ cl, y.mentions ≠ [])
    (hcnt : ∀ y : Item, l.count y = (B.flatten).count y)
    {bcl dcl : List Item} (hbcl : bcl ∈ B) (h : DupRel n l bcl dcl) :
    ClusterRep (n + 1) bcl dcl := by
  refine ⟨h.1, fun y => ?_⟩
  rw [h.2 y]
  by_cases hy : y ∈ bcl
  · have hk : (l.filter fun z => decide (z ∈ bcl)).count y = l.count y :=
      List.count_filter (decide_eq_true hy)
    rw [hk, hcnt y, count_flatten_of_mem_unique hdisj hval hbcl hy, Nat.succ_mul]
  · have hz : (l.filter fun z => decide (z ∈ bcl)).count y = 0 := by
      rw [List.count_eq_zero]
      intro hmem
      exact hy (of_decide_eq_true (List.mem_filter.1 hmem).2)
    rw [hz, List.count_eq_zero_of_not_mem hy, Nat.mul_zero, Nat.mul_zero]

theorem itemsOf_append (a b : List (String × List ECand)) :
    itemsOf (a ++ b) = itemsOf a ++ itemsOf b :=
  List.flatMap_append a b _

theorem clusters_replicate_rep (e : String) (cands : List ECand) :
    ∀ n : Nat, 1 ≤ n →
      List.Forall₂ (ClusterRep n) (clustersOf [(e, cands)])
        (clustersOf (List.replicate n (e, cands))) := by
  intro n
  induction n with
  | zero =>
    intro h
    exact absurd h (by decide)
  | succ m ih =>
    intro _
    by_cases hm : 1 ≤ m
    · have hIH := ih hm
      have hdisj := clustersOf_pairwise_disj [(e, cands)]
      have hval : ∀ cl ∈ clustersOf [(e, cands)], ∀ y ∈ cl, y.mentions ≠ [] :=
        fun cl hcl y hy => itemsOf_valid (mem_clustersOf_mem_items hcl hy)
      have hperm := clustersOf_flatten_perm [(e, cands)]
      have hstep : clustersOf (List.replicate (m + 1) (e, cands)) =
          (itemsOf [(e, cands)]).foldl (fun c z => insertItem z c)
            (clustersOf (List.replicate m (e, cands))) := by
        unfold clustersOf
        rw [List.replicate_succ', itemsOf_append, List.foldl_append]
      rw [hstep]
      have hq : ∀ z ∈ itemsOf [(e, cands)], z.mentions ≠ [] ∧
          ∃ bcl ∈ clustersOf [(e, cands)], z ∈ bcl := by
        intro z hz
        refine ⟨itemsOf_valid hz, ?_⟩
        have hz2 : z ∈ (clustersOf [(e, cands)]).flatten := hperm.mem_iff.2 hz
        obtain ⟨cl, hcl, hzcl⟩ := List.mem_flatten.1 hz2
        exact ⟨cl, hcl, hzcl⟩
      have hfold := pass_fold hdisj hval (itemsOf [(e, cands)]) []
        hq (rep_to_dup hIH)
      have hcnt : ∀ y : Item, (itemsOf [(e, cands)]).count y =
          ((clustersOf [(e, cands)]).flatten).count y :=
        fun y => (hperm.count_eq y).symm
      refine forall₂_imp_mem _ (fun bcl hbcl dcl hrel =>
        dup_to_rep hdisj hval hcnt hbcl hrel) ?_
      simpa using hfold
    · have hm0 : m = 0 := by omega
      subst hm0
      show List.Forall₂ (ClusterRep 1) (clustersOf [(e, cands)])
        (clustersOf (List.replicate 1 (e, cands)))
      rw [List.replicate_one]
      refine List.forall₂_same.2 fun cl _ => ?_
      refine ⟨⟨[], by simp, by simp⟩, fun y => ?_⟩
      rw [Nat.one_mul]

theorem map_eq_of_forall₂ {α β : Type} {f : α → β} {B D : List α}
    (hf : List.Forall₂ (fun a b => f b = f a) B D) : D.map f = B.map f := by
  induction hf with
  | nil => rfl
  | cons hrel hrest ih => simp [ih, hrel]

/-- Claim C7: entity consolidation is idempotent under replication of a
single extractor's contribution — consolidating the extractor's candidate
list repeated `N ≥ 1` times (the same extractor id each time, as it is
the same extractor's output) yields exactly the same consolidated entity
list as consolidating it once, at every vote threshold: support counts
distinct extractor ids, not candidates, so the repeats change nothing. -/
theorem c7_consolidation_idempotent_replication (minVotes : Nat) (e : String)
    (cands : List ECand) (N : Nat) (hN : 1 ≤ N) :
    consolidateEntities minVotes (List.replicate N (e, cands)) =
      consolidateEntities minVotes [(e, cands)] := by
  have hrep := clusters_replicate_rep e cands N hN
  have hout : List.Forall₂
      (fun bcl dcl => clusterOutput dcl = clusterOutput bcl)
      (clustersOf [(e, cands)]) (clustersOf (List.replicate N (e, cands))) :=
    List.Forall₂.imp
      (fun bcl dcl hr => clusterOutput_eq_of_rep hN hr.1 hr.2) hrep
  have hmap := map_eq_of_forall₂ hout
  unfold consolidateEntities
  rw [hmap]

/-- Witness for C7: three copies of one extractor's two-candidate list
consolidate to exactly the single-copy result. -/
theorem c7_witness :
    consolidateEntities 1 (List.replicate 3
      ("A", [⟨["U.S.", "United States"], some "location"⟩,
             ⟨["Texas"], some "location"⟩])) =
    consolidateEntities 1
      [("A", [⟨["U.S.", "United States"], some "location"⟩,
              ⟨["Texas"], some "location"⟩])] :=
  c7_consolidation_idempotent_replication 1 "A"
    [⟨["U.S.", "United States"], some "location"⟩,
     ⟨["Texas"], some "location"⟩] 3 (by decide)

end ZeroSemble
